import Mathlib

/-!
Verification development for the `mlife-parser` de-identification engine
(`src/deidentifier_engine/anonymizer.py` and `src/deidentifier_engine/nlp_engine.py`).

The Python source is shallowly embedded: pure text processing becomes Lean
functions on `List Char` / `String`; the pandas DataFrame pipeline becomes a
fold over an explicit row list that also records the mutation log (which
object was written) and the progress-callback trace; the model download and
lazy engine initialisation become state-passing functions over an explicit
environment of outcomes for the external calls (network, filesystem,
constructor calls), each of which may fail.

Modelling notes, recorded once here:
* Python `str.lower()` / `re.IGNORECASE` are modelled by `pyLower`, covering
  ASCII letters and the German capitals Ä/Ö/Ü that occur in this code base.
* Python's `\s` is modelled by the ASCII whitespace characters.
* `rapidfuzz.fuzz.ratio` is the normalized InDel similarity
  `200 * lcs / (len a + len b)`; the float comparison `ratio >= threshold`
  is modelled exactly over the rationals.
* DataFrame row labels are modelled as list positions (the parser produces
  frames with a default integer index).
-/

/-! ## Character classes and Python string helpers -/

/-- ASCII whitespace, modelling Python's `\s` character class (and `str.strip`). -/
def isSpaceChar (c : Char) : Bool :=
  c.toNat = 32 ∨ c.toNat = 9 ∨ c.toNat = 10 ∨ c.toNat = 13 ∨ c.toNat = 11 ∨ c.toNat = 12

/-- The punctuation characters of the delimiter class in
`re.split(r'(\s+|[,;.!?:\-\(\)\[\]\"\']+)', txt)` (anonymizer.py line 67). -/
def isPunctDelim (c : Char) : Bool :=
  c.toNat = 44 ∨ c.toNat = 59 ∨ c.toNat = 46 ∨ c.toNat = 33 ∨ c.toNat = 63 ∨
  c.toNat = 58 ∨ c.toNat = 45 ∨ c.toNat = 40 ∨ c.toNat = 41 ∨ c.toNat = 91 ∨
  c.toNat = 93 ∨ c.toNat = 34 ∨ c.toNat = 39

/-- A delimiter character: whitespace or listed punctuation. -/
def isDelim (c : Char) : Bool := isSpaceChar c || isPunctDelim c

/-- Lower-casing as used by `str.lower()` / `re.IGNORECASE`: ASCII letters
plus the German capital umlauts Ä, Ö, Ü (the characters occurring in this
repository's data). -/
def pyLower (c : Char) : Char :=
  if 65 ≤ c.toNat ∧ c.toNat ≤ 90 then Char.ofNat (c.toNat + 32)
  else if c.toNat = 196 ∨ c.toNat = 214 ∨ c.toNat = 220 then Char.ofNat (c.toNat + 32)
  else c

/-- Python `str.strip()` on a character list: remove leading and trailing
whitespace. -/
def stripL (l : List Char) : List Char :=
  ((l.dropWhile isSpaceChar).reverse.dropWhile isSpaceChar).reverse

/-- Python `str.strip()` at `String` level. -/
def pyStripS (s : String) : String := String.mk (stripL s.toList)

/-- The placeholder token `"<ANONYM>"` substituted for matched terms. -/
def PHL : List Char := "<ANONYM>".toList

/-! ## Case-insensitive literal matching (exact mode of `blacklist_replace`) -/

/-- Boolean list-prefix test. -/
def lstarts : List Char → List Char → Bool
  | [], _ => true
  | _ :: _, [] => false
  | a :: as, b :: bs => (a = b) && lstarts as bs

/-- Does term `t` match (case-insensitively) at the head of `s`? -/
def mAt (t s : List Char) : Bool := lstarts (t.map pyLower) (s.map pyLower)

/-- Does term `t` occur (case-insensitively) anywhere in `s`? -/
def containsCI (t : List Char) : List Char → Bool
  | [] => mAt t []
  | c :: rest => mAt t (c :: rest) || containsCI t rest

/-- Fuel-indexed core of the case-insensitive leftmost, non-overlapping
`re.sub(re.escape(term), "<ANONYM>", txt, flags=IGNORECASE)` scan
(anonymizer.py lines 60-62). -/
def replaceTermF (t : List Char) : Nat → List Char → List Char
  | 0, s => s
  | _ + 1, [] => []
  | fuel + 1, c :: rest =>
    if mAt t (c :: rest) then PHL ++ replaceTermF t fuel (rest.drop (t.length - 1))
    else c :: replaceTermF t fuel rest

/-- Case-insensitive replacement of every occurrence of `t` by `<ANONYM>`. -/
def replaceTerm (t s : List Char) : List Char := replaceTermF t s.length s

/-- Exact mode: sequentially substitute each clean term
(anonymizer.py lines 58-63). -/
def blacklistExactL (terms : List (List Char)) (s : List Char) : List Char :=
  terms.foldl (fun acc t => replaceTerm t acc) s

/-! ## Fuzzy similarity (`rapidfuzz.fuzz.ratio`) -/

/-- Fuel-indexed longest-common-subsequence length. -/
def lcsF : Nat → List Char → List Char → Nat
  | 0, _, _ => 0
  | _ + 1, [], _ => 0
  | _ + 1, _, [] => 0
  | fuel + 1, a :: as, b :: bs =>
    if a = b then lcsF fuel as bs + 1
    else max (lcsF fuel (a :: as) bs) (lcsF fuel as (b :: bs))

/-- Longest common subsequence length of two character lists. -/
def lcsLen (a b : List Char) : Nat := lcsF (a.length + b.length) a b

/-- `fuzz.ratio(a, b) >= thr`, decided exactly over the rationals:
the normalized InDel similarity is `200 * lcs / (|a| + |b|)`. -/
def fuzzRatioGe (a b : List Char) (thr : Nat) : Bool :=
  thr * (a.length + b.length) ≤ 200 * lcsLen a b

/-- The similarity ratio as a rational number in [0, 100]:
`200 * lcs / (|a| + |b|)`. -/
def ratioQ (a b : List Char) : ℚ :=
  mkRat (200 * lcsLen a b) (a.length + b.length)

/-! ## Fuzzy mode: tokenization and per-token decision -/

/-- Fuel-indexed embedding of `re.split(r'(\s+|[,;.!?:\-\(\)\[\]\"\']+)', txt)`:
the result alternates non-delimiter segments with captured delimiter runs,
where a run is a maximal block of a single class (whitespace or punctuation),
and empty segments appear between adjacent runs and at the borders. -/
def pySplitF : Nat → List Char → List (List Char)
  | 0, s => [s]
  | fuel + 1, s =>
    let seg := s.takeWhile (fun c => !isDelim c)
    let rest := s.dropWhile (fun c => !isDelim c)
    match rest with
    | [] => [seg]
    | c :: _ =>
      let cls := if isSpaceChar c then isSpaceChar else isPunctDelim
      seg :: rest.takeWhile cls :: pySplitF fuel (rest.dropWhile cls)

/-- Tokenize a text into alternating segments and delimiter runs. -/
def pySplit (s : List Char) : List (List Char) := pySplitF s.length s

/-- Concatenate the token list back into a text. -/
def joinL : List (List Char) → List Char
  | [] => []
  | x :: xs => x ++ joinL xs

/-- The skip condition of the fuzzy loop (anonymizer.py line 72):
`not token or not token.strip() or re.match(r'^[\s,;.!?:\-\(\)\[\]\"\']+$', token)`. -/
def skipTok (tok : List Char) : Bool :=
  tok.isEmpty || (stripL tok).isEmpty || (!tok.isEmpty && tok.all isDelim)

/-- The per-token decision of the fuzzy loop (anonymizer.py lines 77-89):
exact case-insensitive equality with some term, or, when the lengths differ
by at most 2, similarity ratio at or above the threshold. -/
def shouldReplace (terms : List (List Char)) (thr : Nat) (tok : List Char) : Bool :=
  terms.any (fun t =>
    (tok.map pyLower = t.map pyLower) ||
    (((tok.length : Int) - (t.length : Int)).natAbs ≤ 2 &&
      fuzzRatioGe (tok.map pyLower) (t.map pyLower) thr))

/-- Process one token of the fuzzy loop. -/
def procTok (terms : List (List Char)) (thr : Nat) (tok : List Char) : List Char :=
  if skipTok tok then tok
  else if shouldReplace terms thr tok then PHL
  else tok

/-- Fuzzy mode of `blacklist_replace` (anonymizer.py lines 65-96). -/
def fuzzyL (terms : List (List Char)) (thr : Nat) (s : List Char) : List Char :=
  joinL ((pySplit s).map (procTok terms thr))

/-! ## `blacklist_replace` -/

/-- `clean_terms = [t.strip() for t in terms if t and t.strip()]`
(anonymizer.py line 54). -/
def cleanTerms (terms : List String) : List String :=
  (terms.filter (fun t => t ≠ "" && pyStripS t ≠ "")).map pyStripS

/-- Embedding of `blacklist_replace(txt, terms, fuzzy_matching, fuzzy_threshold)`
(anonymizer.py lines 37-96). -/
def blacklist_replace (txt : String) (terms : List String)
    (fuzzy_matching : Bool) (fuzzy_threshold : Nat) : String :=
  if terms = [] ∨ txt = "" then txt
  else
    let clean := cleanTerms terms
    if clean = [] then txt
    else if fuzzy_matching = false then
      String.mk (blacklistExactL (clean.map String.toList) txt.toList)
    else
      String.mk (fuzzyL (clean.map String.toList) fuzzy_threshold txt.toList)

/-! ## Data model of the pipeline (`anonymize_dataframe`) -/

/-- A cell value: numeric scalar (with an int/float tag; the payload is
opaque to the pipeline), string, or missing (`NaN`/`None`). -/
inductive PyValue where
  | pnum (isFloat : Bool) (v : Int)
  | pstr (s : String)
  | pnone
deriving DecidableEq

/-- One row of the dataset: a `value` cell and the optional `source_type`
label (missing labels are `none`). -/
structure PyRow where
  value : PyValue
  source_type : Option String
deriving DecidableEq

instance : Inhabited PyRow := ⟨⟨PyValue.pnone, none⟩⟩

/-- A DataFrame: an object identity tag, which columns are present, and the
ordered rows (labelled by position). -/
structure PyFrame where
  objId : Nat
  hasValueCol : Bool
  hasSourceTypeCol : Bool
  rows : List PyRow
deriving DecidableEq

/-- `str(value)`: only its non-blankness (and, for strings, the exact text)
is consumed by the pipeline, since numeric cells are skipped before the
length check. -/
def pyStr : PyValue → String
  | .pnum false v => toString v
  | .pnum true v => toString v ++ ".0"
  | .pstr s => s
  | .pnone => "None"

/-- `pd.notna` on a cell. -/
def notna : PyValue → Bool
  | .pnone => false
  | _ => true

/-- The `value_mask` of anonymizer.py line 199: non-null and non-blank after
string coercion. -/
def isCandidate (r : PyRow) : Bool :=
  notna r.value && !(stripL (pyStr r.value).toList).isEmpty

/-- The freetext source-type categories (anonymizer.py lines 11-34). -/
def FREETEXT_SOURCE_TYPES : List String :=
  ["Arztnotizen", "Anamnese", "Visite", "Status", "Anästhesieübergabe",
   "Kardiotechnik (Notizen)", "Mikrobiologie", "Atmungstherapie",
   "Bronchoskopie", "Meilensteine", "Visite durchgeführt von",
   "weitere TeilnehmerInnen", "fachärztliche Behandlungsleitung",
   "fachärztliche Behandlungsleitung (WDA1I, WD4I)", "Anästhesiepflege",
   "HK Befund", "Reanimation", "Verbal Rate Skala", "Intensivmedizin",
   "Operation/Datum/Operateur", "Therapieplanung Folgewoche/Ziele/Sonstiges",
   "Behandlungsergebnisse/akt. Situation"]

/-- `df['source_type'].isin(FREETEXT_SOURCE_TYPES)` for one row; a missing
label is not freetext. -/
def isFreetextRow (r : PyRow) : Bool :=
  match r.source_type with
  | some s => FREETEXT_SOURCE_TYPES.contains s
  | none => false

/-- A row the loop skips with `continue` (numeric, or string form shorter
than 5 characters; anonymizer.py lines 209-218). -/
def skipRow (r : PyRow) : Bool :=
  match r.value with
  | .pnum _ _ => true
  | v => (pyStr v).length < 5

/-- Positions of the rows satisfying `p`, in order. -/
def idxWhere (p : PyRow → Bool) (rows : List PyRow) : List Nat :=
  (List.range rows.length).filter (fun i => p (rows.getD i default))

/-- Embedding of `anonymize_content(text, blacklist, fuzzy_matching,
fuzzy_threshold)` (anonymizer.py lines 99-142). The Presidio analyzer and
anonymizer calls (recognition of PERSON / PHONE_NUMBER / EMAIL_ADDRESS spans
and their substitution) are an external collaborator, collapsed into the
oracle `nlp`, which returns the entity-substituted text or raises. -/
def anonymize_content (nlp : String → Except String String) (text : String)
    (blacklist : List String) (fuzzy_matching : Bool) (fuzzy_threshold : Nat) :
    Except String String :=
  if text = "" then .ok ""
  else
    match nlp text with
    | .error e => .error e
    | .ok final_text =>
      if blacklist ≠ [] then
        .ok (blacklist_replace final_text blacklist fuzzy_matching fuzzy_threshold)
      else .ok final_text

/-- The fixed context of one `anonymize_dataframe` run. -/
structure Ctx where
  nlp : String → Except String String
  clean : List String
  fuzzy : Bool
  thr : Nat
  hasCallback : Bool
  freshId : Nat
  freetext : List Nat
  total : Nat

/-- The mutable state of the row loop: the rows of the copy `df_anon`, the
log of `.at` writes (object id, row position, new value), the `processed`
counter, and the progress fractions reported so far. -/
structure LoopSt where
  rows : List PyRow
  writes : List (Nat × Nat × PyValue)
  processed : Nat
  trace : List ℚ

/-- `df_anon.at[idx, 'value'] = v`: write into the copy and log the write. -/
def writeAt (ctx : Ctx) (st : LoopSt) (idx : Nat) (v : PyValue) : LoopSt :=
  { st with
    rows := st.rows.set idx { st.rows.getD idx default with value := v }
    writes := st.writes ++ [(ctx.freshId, idx, v)] }

/-- The write step of the loop body for a non-skipped row (anonymizer.py
lines 220-242): freetext rows run `anonymize_content` with blacklist-only
fallback on error, other rows run the blacklist only (and only when the
clean blacklist is non-empty). -/
def procRowWrite (ctx : Ctx) (st : LoopSt) (idx : Nat) (value_str : String) : LoopSt :=
  if idx ∈ ctx.freetext then
    match anonymize_content ctx.nlp value_str ctx.clean ctx.fuzzy ctx.thr with
    | .ok w => writeAt ctx st idx (.pstr w)
    | .error _ =>
      if ctx.clean ≠ [] then
        writeAt ctx st idx
          (.pstr (blacklist_replace value_str ctx.clean ctx.fuzzy ctx.thr))
      else st
  else
    if ctx.clean ≠ [] then
      writeAt ctx st idx
        (.pstr (blacklist_replace value_str ctx.clean ctx.fuzzy ctx.thr))
    else st

/-- The body of `for idx in rows_to_process` (anonymizer.py lines 205-249). -/
def procRow (ctx : Ctx) (st : LoopSt) (idx : Nat) : LoopSt :=
  match (st.rows.getD idx default).value with
  | .pnum _ _ => { st with processed := st.processed + 1 }
  | v =>
    let value_str := pyStr v
    if value_str.length < 5 then { st with processed := st.processed + 1 }
    else
      let st1 := procRowWrite ctx st idx value_str
      let st2 := { st1 with processed := st1.processed + 1 }
      if ctx.hasCallback && st2.processed % 100 == 0 then
        { st2 with trace := st2.trace ++ [(st2.processed : ℚ) / (ctx.total : ℚ)] }
      else st2

/-- The result of one `anonymize_dataframe` run: the returned frame, the
mutation log, and the progress-callback fractions in order. -/
structure RunResult where
  out : PyFrame
  writes : List (Nat × Nat × PyValue)
  trace : List ℚ
deriving DecidableEq

/-- The candidate row positions (`rows_to_process`). -/
def candIdx (df : PyFrame) : List Nat := idxWhere isCandidate df.rows

/-- The freetext row positions (`freetext_indices`). -/
def freeIdx (df : PyFrame) : List Nat :=
  if df.hasSourceTypeCol then idxWhere isFreetextRow df.rows else []

/-- The context a run of `anonymize_dataframe` works in. -/
def runCtx (nlp : String → Except String String) (df : PyFrame)
    (blacklist : List String) (fuzzy : Bool) (thr : Nat)
    (hasCallback : Bool) (freshId : Nat) : Ctx :=
  ⟨nlp, cleanTerms blacklist, fuzzy, thr, hasCallback, freshId,
    freeIdx df, (candIdx df).length⟩

/-- Embedding of `anonymize_dataframe(df, blacklist, fuzzy_matching,
fuzzy_threshold, progress_callback)` (anonymizer.py lines 145-254).
`hasCallback` is whether a progress callback was supplied; `freshId` is the
object identity pandas gives the copy `df_anon = df.copy()`. -/
def anonymize_dataframe (nlp : String → Except String String) (df : PyFrame)
    (blacklist : List String) (fuzzy_matching : Bool) (fuzzy_threshold : Nat)
    (hasCallback : Bool) (freshId : Nat) : RunResult :=
  if df.rows = [] then ⟨df, [], []⟩
  else
    let df_anon : PyFrame := { df with objId := freshId }
    if !df.hasValueCol then ⟨df_anon, [], []⟩
    else
      let clean := cleanTerms blacklist
      if clean = [] ∧ !df.hasSourceTypeCol then ⟨df_anon, [], []⟩
      else
        let ctx := runCtx nlp df blacklist fuzzy_matching fuzzy_threshold hasCallback freshId
        let tr0 : List ℚ := if hasCallback then [0] else []
        let stF := (candIdx df).foldl (procRow ctx) ⟨df.rows, [], 0, tr0⟩
        let trF := if hasCallback then stF.trace ++ [1] else stF.trace
        ⟨{ df_anon with rows := stF.rows }, stF.writes, trF⟩

/-- The per-row outcome the loop produces for a candidate row (`free` is
whether the row is freetext): the specification the locality lemmas relate
the fold to. -/
def rowRes (ctx : Ctx) (free : Prop) [Decidable free] (r : PyRow) : PyRow :=
  match r.value with
  | .pnum _ _ => r
  | v =>
    let value_str := pyStr v
    if value_str.length < 5 then r
    else if free then
      match anonymize_content ctx.nlp value_str ctx.clean ctx.fuzzy ctx.thr with
      | .ok w => { r with value := .pstr w }
      | .error _ =>
        if ctx.clean ≠ [] then
          { r with value := .pstr (blacklist_replace value_str ctx.clean ctx.fuzzy ctx.thr) }
        else r
    else if ctx.clean ≠ [] then
      { r with value := .pstr (blacklist_replace value_str ctx.clean ctx.fuzzy ctx.thr) }
    else r

/-- The intermediate progress fractions the loop reports, computed directly
from the candidate rows in order: each row increments the counter; a row
that is not skipped and brings the counter to a multiple of 100 reports
`counter / total`. -/
def midTrace (ctx : Ctx) : List PyRow → Nat → List ℚ
  | [], _ => []
  | r :: rest, p =>
    if skipRow r then midTrace ctx rest (p + 1)
    else if ctx.hasCallback && (p + 1) % 100 == 0 then
      (((p + 1 : Nat) : ℚ) / (ctx.total : ℚ)) :: midTrace ctx rest (p + 1)
    else midTrace ctx rest (p + 1)

/-! ## Model download (`nlp_engine.download_model_with_progress`) -/

/-- One `response.read(block_size)` outcome: a chunk of `n` bytes (0 = end
of stream), a `socket.timeout`, or another exception. -/
inductive ReadEv where
  | chunk (n : Nat)
  | rdTimeout
  | rdError (msg : String)
deriving DecidableEq

/-- Outcome of the connect worker thread (`try_connect`, nlp_engine.py lines
141-155): still running at the join deadline, failed with an error, or
connected with a declared content length and a stream of read outcomes.
`try_connect` assigns `response` before setting `success`, so a successful
outcome always carries a response. -/
inductive ConnectOutcome where
  | hung
  | connFailed (msg : String)
  | connected (contentLength : Nat) (reads : List ReadEv)
deriving DecidableEq

/-- Outcome of `tarfile.open(...).extractall(...)`. -/
inductive ExtractRes where
  | extractOk
  | tarErr (msg : String)
  | otherErr (msg : String)
deriving DecidableEq

/-- Environment of external outcomes for one download attempt. -/
structure DlEnv where
  mkdirOk : Bool
  connectivityOk : Bool
  connectivityMsg : String
  outcome : ConnectOutcome
  extract : ExtractRes
deriving DecidableEq

/-- Result of one download attempt: the returned pair, whether the
temporary download file was ever created, and whether it still exists when
the function returns. -/
structure DlResult where
  success : Bool
  message : String
  tmpCreated : Bool
  tmpExists : Bool
deriving DecidableEq

/-- `os.remove(tmp_path)` guarded by `os.path.exists` (the code always
checks existence first; removal itself succeeds in this model). -/
def removeTmp (_tmp : Bool) : Bool := false

/-- The streaming read loop of nlp_engine.py lines 185-223, tracking the
byte count and the temp-file state; an exhausted event list reads as end of
stream. Returns either a failure result or the final byte count. -/
def readLoop (reads : List ReadEv) (downloaded : Nat) (tmp : Bool) :
    Except DlResult Nat :=
  match reads with
  | [] => .ok downloaded
  | .rdTimeout :: _ =>
    .error ⟨false,
      "Download-Timeout: Keine Daten empfangen. Verbindung möglicherweise blockiert.",
      true, removeTmp tmp⟩
  | .rdError e :: _ => .error ⟨false, "Download-Fehler: " ++ e, true, removeTmp tmp⟩
  | .chunk 0 :: _ => .ok downloaded
  | .chunk (n + 1) :: rest => readLoop rest (downloaded + (n + 1)) tmp

/-- Embedding of `download_model_with_progress` (nlp_engine.py lines
99-269). Every branch mirrors a return path of the source, including the
mutable `download_result` dict filled in by the worker thread. -/
def download_model_with_progress (env : DlEnv) : DlResult :=
  if !env.mkdirOk then
    ⟨false, "Konnte Verzeichnis nicht erstellen", false, false⟩
  else if !env.connectivityOk then
    ⟨false, "Keine Verbindung zu GitHub möglich: " ++ env.connectivityMsg ++
      ". Bitte prüfen Sie Ihre Firewall-Einstellungen.", false, false⟩
  else
    -- tempfile.NamedTemporaryFile(...) : the temp file now exists
    let tmp := true
    -- download_result after the join: (success, error, response)
    let success : Bool := match env.outcome with
      | .connected _ _ => true
      | _ => false
    let isAlive : Bool := match env.outcome with
      | .hung => true
      | _ => false
    if isAlive || !success then
      let errMsg := match env.outcome with
        | .connFailed e => e
        | _ => "Verbindungs-Timeout - Server antwortet nicht"
      ⟨false, "Netzwerkfehler: " ++ errMsg ++
        ". Bitte prüfen Sie Ihre Firewall-Einstellungen.", true, removeTmp tmp⟩
    else
      match env.outcome with
      | .hung => ⟨false, "", true, tmp⟩
      | .connFailed _ => ⟨false, "", true, tmp⟩
      | .connected total_size reads =>
        match readLoop reads 0 tmp with
        | .error r => r
        | .ok downloaded =>
          if 0 < total_size ∧ downloaded < total_size then
            ⟨false, "Download unvollständig", true, removeTmp tmp⟩
          else
            match env.extract with
            | .tarErr e => ⟨false, "Fehler beim Entpacken: " ++ e, true, removeTmp tmp⟩
            | .otherErr e => ⟨false, "Unerwarteter Fehler: " ++ e, true, removeTmp tmp⟩
            | .extractOk =>
              ⟨true, "Modell erfolgreich heruntergeladen und installiert.",
                true, removeTmp tmp⟩

/-! ## Lazy engine initialisation (`nlp_engine._initialize_engines`) -/

/-- The module-level state `(_analyzer, _anonymizer, _initialized)`
(nlp_engine.py lines 30-32); engine instances are identified by opaque ids. -/
structure EngineState where
  analyzer : Option Nat
  anonymizer : Option Nat
  initialized : Bool
deriving DecidableEq

/-- The initial module state. -/
def initialEngineState : EngineState := ⟨none, none, false⟩

/-- Environment of external outcomes for `_initialize_engines`: model
availability, and the three fallible external constructions
(`provider.create_engine()`, `AnalyzerEngine(...)`, `AnonymizerEngine()`). -/
structure InitEnv where
  modelAvailable : Bool
  createEngine : Except String Nat
  analyzerCtor : Nat → Except String Nat
  anonymizerCtor : Except String Nat

/-- Embedding of `_initialize_engines` (nlp_engine.py lines 301-336):
returns the new state and the raised exception, if any. Each Python
assignment happens only after the constructing call returned, so a failure
in `AnonymizerEngine()` leaves `_analyzer` already assigned. -/
def _initialize_engines (env : InitEnv) (s : EngineState) :
    EngineState × Option String :=
  if s.initialized then (s, none)
  else if !env.modelAvailable then
    (s, some "RuntimeError: spaCy-Modell nicht gefunden. Bitte mit download_model() herunterladen.")
  else
    match env.createEngine with
    | .error e => (s, some e)
    | .ok eng =>
      match env.analyzerCtor eng with
      | .error e => (s, some e)
      | .ok a =>
        match env.anonymizerCtor with
        | .error e => ({ s with analyzer := some a }, some e)
        | .ok an => (⟨some a, some an, true⟩, none)

/-- Embedding of `get_analyzer` (nlp_engine.py lines 339-348): initialise
if needed, propagate a raise, otherwise return the module-level instance. -/
def get_analyzer (env : InitEnv) (s : EngineState) :
    EngineState × Except String (Option Nat) :=
  if !s.initialized then
    match _initialize_engines env s with
    | (s', some e) => (s', .error e)
    | (s', none) => (s', .ok s'.analyzer)
  else (s, .ok s.analyzer)

/-- Embedding of `get_anonymizer` (nlp_engine.py lines 351-360). -/
def get_anonymizer (env : InitEnv) (s : EngineState) :
    EngineState × Except String (Option Nat) :=
  if !s.initialized then
    match _initialize_engines env s with
    | (s', some e) => (s', .error e)
    | (s', none) => (s', .ok s'.anonymizer)
  else (s, .ok s.anonymizer)

/-! ## Spec-side definitions used by the claim statements -/

/-- The state invariant of the lazy singleton: once the flag is set, both
instances are present. -/
def EngineInv (s : EngineState) : Prop :=
  s.initialized = true → s.analyzer.isSome = true ∧ s.anonymizer.isSome = true

/-- The claim criterion for replacing a fuzzy-mode token, written from the
specification: the token equals some term case-insensitively, or the lengths
differ by at most 2 and the similarity ratio of the lower-cased forms is at
or above the threshold. -/
def specReplaceCrit (terms : List (List Char)) (thr : Nat) (tok : List Char) : Prop :=
  ∃ t ∈ terms,
    tok.map pyLower = t.map pyLower ∨
      (((tok.length : Int) - (t.length : Int)).natAbs ≤ 2 ∧
        (thr : ℚ) ≤ ratioQ (tok.map pyLower) (t.map pyLower))

instance (terms : List (List Char)) (thr : Nat) (tok : List Char) :
    Decidable (specReplaceCrit terms thr tok) := by
  unfold specReplaceCrit
  infer_instance

/-- The lowered character set of a term (as a list). -/
def charsOf (t : List Char) : List Char := t.map pyLower

/-- Two terms use disjoint character sets, case-insensitively. -/
def chDisj (a b : List Char) : Prop :=
  ∀ c ∈ a, ∀ d ∈ b, pyLower c ≠ pyLower d

/-- A term list is interference-free for exact mode: terms are nonempty,
share no characters with the placeholder, and pairwise share no characters
with each other (all case-insensitively). -/
def ExactSafe (terms : List (List Char)) : Prop :=
  (∀ t ∈ terms, t ≠ [] ∧ chDisj t PHL) ∧ terms.Pairwise chDisj

instance (a b : List Char) : Decidable (chDisj a b) := by
  unfold chDisj
  infer_instance

instance (terms : List (List Char)) : Decidable (ExactSafe terms) := by
  unfold ExactSafe
  infer_instance

/-- The progress trace asserted by the claim, literally: `0.0` first, then
after every 100 processed candidate rows the fraction
`processedCount / totalCandidates`, then exactly `1.0`. -/
def claimedTrace (total : Nat) : List ℚ :=
  (0 : ℚ) :: ((List.range (total / 100)).map
    (fun k => ((100 * (k + 1) : ℚ)) / (total : ℚ))) ++ [1]

/-! ## Basic list lemmas -/

theorem takeWhile_append_all {p : Char → Bool} {a : List Char} (b : List Char)
    (h : ∀ c ∈ a, p c = true) : (a ++ b).takeWhile p = a ++ b.takeWhile p := by
  induction a with
  | nil => simp
  | cons x xs ih =>
    have hx : p x = true := h x (by simp)
    simp only [List.cons_append, List.takeWhile_cons, hx, if_true]
    rw [ih (fun c hc => h c (by simp [hc]))]

theorem dropWhile_append_all {p : Char → Bool} {a : List Char} (b : List Char)
    (h : ∀ c ∈ a, p c = true) : (a ++ b).dropWhile p = b.dropWhile p := by
  induction a with
  | nil => simp
  | cons x xs ih =>
    have hx : p x = true := h x (by simp)
    simp only [List.cons_append, List.dropWhile_cons, hx, if_true]
    exact ih (fun c hc => h c (by simp [hc]))

theorem takeWhile_all_eq {p : Char → Bool} {a : List Char}
    (h : ∀ c ∈ a, p c = true) : a.takeWhile p = a := by
  induction a with
  | nil => rfl
  | cons x xs ih =>
    simp only [List.takeWhile_cons, h x (by simp), if_true]
    rw [ih (fun c hc => h c (by simp [hc]))]

theorem dropWhile_all_eq {p : Char → Bool} {a : List Char}
    (h : ∀ c ∈ a, p c = true) : a.dropWhile p = [] := by
  induction a with
  | nil => rfl
  | cons x xs ih =>
    simp only [List.dropWhile_cons, h x (by simp), if_true]
    exact ih (fun c hc => h c (by simp [hc]))

theorem dropWhile_length_le (p : Char → Bool) (l : List Char) :
    (l.dropWhile p).length ≤ l.length := by
  induction l with
  | nil => simp
  | cons a t ih =>
    rw [List.dropWhile_cons]
    by_cases h : p a = true
    · rw [if_pos h]; simp only [List.length_cons]; omega
    · rw [if_neg h]

theorem dropWhile_head_false {p : Char → Bool} :
    ∀ (l : List Char) {c t}, l.dropWhile p = c :: t → p c = false := by
  intro l
  induction l with
  | nil => intro c t h; simp at h
  | cons a l ih =>
    intro c t h
    by_cases ha : p a = true
    · rw [List.dropWhile_cons, if_pos ha] at h
      exact ih h
    · rw [List.dropWhile_cons, if_neg ha] at h
      cases h
      simpa using ha

theorem takeWhile_nil_dropWhile {p : Char → Bool} {l : List Char}
    (h : l.takeWhile p = []) : l.dropWhile p = l := by
  cases l with
  | nil => rfl
  | cons a t =>
    rw [List.takeWhile_cons] at h
    by_cases ha : p a = true
    · rw [if_pos ha] at h; simp at h
    · rw [List.dropWhile_cons, if_neg ha]

theorem takeWhile_head_false {p : Char → Bool} {c : Char} {t : List Char}
    (h : p c = false) : (c :: t).takeWhile p = [] := by
  rw [List.takeWhile_cons, h]; rfl

theorem mem_takeWhile_sat {p : Char → Bool} :
    ∀ {l : List Char} {c : Char}, c ∈ l.takeWhile p → p c = true := by
  intro l
  induction l with
  | nil => intro c h; simp at h
  | cons a t ih =>
    intro c h
    rw [List.takeWhile_cons] at h
    by_cases ha : p a = true
    · rw [if_pos ha] at h
      rcases List.mem_cons.mp h with rfl | h2
      · exact ha
      · exact ih h2
    · rw [if_neg ha] at h; simp at h

/-! ## Fuel-independence and unfolding equations -/

theorem replaceTermF_fuel (t : List Char) :
    ∀ f₁ f₂ (s : List Char), s.length ≤ f₁ → s.length ≤ f₂ →
      replaceTermF t f₁ s = replaceTermF t f₂ s := by
  intro f₁
  induction f₁ with
  | zero =>
    intro f₂ s h1 _
    have : s = [] := List.eq_nil_of_length_eq_zero (Nat.le_zero.mp h1)
    subst this
    cases f₂ <;> rfl
  | succ f ih =>
    intro f₂ s h1 h2
    cases s with
    | nil => cases f₂ <;> rfl
    | cons c rest =>
      cases f₂ with
      | zero => simp at h2
      | succ f₂ =>
        simp only [List.length_cons] at h1 h2
        have hd : (rest.drop (t.length - 1)).length ≤ rest.length := by
          rw [List.length_drop]; omega
        simp only [replaceTermF]
        by_cases hm : mAt t (c :: rest) = true
        · rw [hm]
          simp only [if_true]
          congr 1
          exact ih f₂ (rest.drop (t.length - 1)) (by omega) (by omega)
        · rw [Bool.not_eq_true] at hm
          rw [hm]
          simp only [Bool.false_eq_true, if_false]
          congr 1
          exact ih f₂ rest (by omega) (by omega)

theorem replaceTerm_nil (t : List Char) : replaceTerm t [] = [] := rfl

theorem replaceTerm_cons (t : List Char) (c : Char) (rest : List Char) :
    replaceTerm t (c :: rest) =
      if mAt t (c :: rest) then PHL ++ replaceTerm t (rest.drop (t.length - 1))
      else c :: replaceTerm t rest := by
  show replaceTermF t (rest.length + 1) (c :: rest) = _
  simp only [replaceTermF]
  by_cases hm : mAt t (c :: rest) = true
  · rw [hm]
    simp only [if_true]
    congr 1
    exact replaceTermF_fuel t rest.length (rest.drop (t.length - 1)).length
      (rest.drop (t.length - 1)) (by rw [List.length_drop]; omega) le_rfl
  · rw [Bool.not_eq_true] at hm
    rw [hm]
    simp only [Bool.false_eq_true, if_false]
    rfl

theorem pySplitF_fuel :
    ∀ f₁ f₂ (s : List Char), s.length ≤ f₁ → s.length ≤ f₂ →
      pySplitF f₁ s = pySplitF f₂ s := by
  intro f₁
  induction f₁ with
  | zero =>
    intro f₂ s h1 _
    have : s = [] := List.eq_nil_of_length_eq_zero (Nat.le_zero.mp h1)
    subst this
    cases f₂ <;> rfl
  | succ f ih =>
    intro f₂ s h1 h2
    cases hs : s.dropWhile (fun c => !isDelim c) with
    | nil =>
      cases f₂ with
      | zero =>
        have : s = [] := List.eq_nil_of_length_eq_zero (Nat.le_zero.mp h2)
        subst this
        rfl
      | succ f₂ => simp only [pySplitF, hs]
    | cons c r =>
      cases f₂ with
      | zero =>
        exfalso
        have : s = [] := List.eq_nil_of_length_eq_zero (Nat.le_zero.mp h2)
        subst this
        simp at hs
      | succ f₂ =>
        simp only [pySplitF, hs]
        have hc : (!isDelim c) = false := dropWhile_head_false s hs
        have hcls : (if isSpaceChar c then isSpaceChar else isPunctDelim) c = true := by
          by_cases hsp : isSpaceChar c = true
          · rw [if_pos hsp]; exact hsp
          · rw [if_neg hsp]
            have : isDelim c = true := by simpa using hc
            rw [isDelim] at this
            rcases Bool.or_eq_true_iff.mp this with h | h
            · exact absurd h hsp
            · exact h
        have hlen : ((c :: r).dropWhile
            (if isSpaceChar c then isSpaceChar else isPunctDelim)).length < s.length := by
          rw [List.dropWhile_cons, if_pos hcls]
          have h3 : r.length < s.length := by
            have := congrArg List.length hs
            simp only [List.length_cons] at this
            have hd := dropWhile_length_le (fun c => !isDelim c) s
            omega
          have := dropWhile_length_le
            (if isSpaceChar c then isSpaceChar else isPunctDelim) r
          omega
        congr 1
        congr 1
        exact ih f₂ _ (by omega) (by omega)

theorem pySplit_eq (s : List Char) :
    pySplit s =
      match s.dropWhile (fun c => !isDelim c) with
      | [] => [s.takeWhile (fun c => !isDelim c)]
      | c :: _ =>
        let rest := s.dropWhile (fun c => !isDelim c)
        let cls := if isSpaceChar c then isSpaceChar else isPunctDelim
        s.takeWhile (fun c => !isDelim c) :: rest.takeWhile cls ::
          pySplit (rest.dropWhile cls) := by
  cases hs : s.dropWhile (fun c => !isDelim c) with
  | nil =>
    cases hsn : s with
    | nil => rfl
    | cons a t =>
      show pySplitF (a :: t).length (a :: t) = _
      simp only [List.length_cons, pySplitF]
      rw [← hsn, hs]
  | cons c r =>
    have hne : s ≠ [] := by
      intro h
      subst h
      simp at hs
    obtain ⟨a, t, rfl⟩ := List.exists_cons_of_ne_nil hne
    show pySplitF (a :: t).length (a :: t) = _
    simp only [List.length_cons, pySplitF]
    rw [hs]
    simp only []
    congr 1
    congr 1
    have hc : (!isDelim c) = false := dropWhile_head_false _ hs
    have hcls : (if isSpaceChar c then isSpaceChar else isPunctDelim) c = true := by
      by_cases hsp : isSpaceChar c = true
      · rw [if_pos hsp]; exact hsp
      · rw [if_neg hsp]
        have : isDelim c = true := by simpa using hc
        rw [isDelim] at this
        rcases Bool.or_eq_true_iff.mp this with h | h
        · exact absurd h hsp
        · exact h
    have hlen : ((c :: r).dropWhile
        (if isSpaceChar c then isSpaceChar else isPunctDelim)).length ≤ t.length := by
      rw [List.dropWhile_cons, if_pos hcls]
      have h3 : r.length ≤ t.length := by
        have := congrArg List.length hs
        simp only [List.length_cons] at this
        have hd := dropWhile_length_le (fun c => !isDelim c) (a :: t)
        simp only [List.length_cons] at hd
        omega
      have := dropWhile_length_le
        (if isSpaceChar c then isSpaceChar else isPunctDelim) r
      omega
    exact pySplitF_fuel t.length _ _ (by omega) le_rfl

theorem pySplit_eq_nil (s : List Char)
    (h : s.dropWhile (fun c => !isDelim c) = []) :
    pySplit s = [s.takeWhile (fun c => !isDelim c)] := by
  rw [pySplit_eq s, h]

theorem pySplit_eq_cons (s : List Char) (c : Char) (r : List Char)
    (h : s.dropWhile (fun c => !isDelim c) = c :: r) :
    pySplit s = s.takeWhile (fun c => !isDelim c) ::
      (c :: r).takeWhile (if isSpaceChar c then isSpaceChar else isPunctDelim) ::
      pySplit ((c :: r).dropWhile (if isSpaceChar c then isSpaceChar else isPunctDelim)) := by
  rw [pySplit_eq s, h]

theorem joinL_append (a : List (List Char)) (b : List (List Char)) :
    joinL (a ++ b) = joinL a ++ joinL b := by
  induction a with
  | nil => rfl
  | cons x xs ih =>
    show x ++ joinL (xs ++ b) = x ++ joinL xs ++ joinL b
    rw [ih, List.append_assoc]

theorem joinL_pySplitF :
    ∀ fuel (s : List Char), joinL (pySplitF fuel s) = s := by
  intro fuel
  induction fuel with
  | zero => intro s; simp [pySplitF, joinL]
  | succ f ih =>
    intro s
    cases hs : s.dropWhile (fun c => !isDelim c) with
    | nil =>
      simp only [pySplitF, hs, joinL, List.append_nil]
      conv_rhs => rw [← List.takeWhile_append_dropWhile (p := fun c => !isDelim c) (l := s)]
      rw [hs, List.append_nil]
    | cons c r =>
      simp only [pySplitF, hs, joinL, ih]
      rw [List.takeWhile_append_dropWhile]
      conv_rhs => rw [← List.takeWhile_append_dropWhile (p := fun c => !isDelim c) (l := s)]
      rw [hs]

theorem joinL_pySplit (s : List Char) : joinL (pySplit s) = s :=
  joinL_pySplitF s.length s

/-! ## Lemmas: download lifecycle -/

theorem readLoop_error_tmp :
    ∀ (reads : List ReadEv) (d : Nat) (tmp : Bool) (r : DlResult),
      readLoop reads d tmp = .error r → r.tmpExists = false := by
  intro reads
  induction reads with
  | nil => intro d tmp r h; simp [readLoop] at h
  | cons ev rest ih =>
    intro d tmp r h
    cases ev with
    | chunk n =>
      cases n with
      | zero => simp [readLoop] at h
      | succ m => exact ih (d + (m + 1)) tmp r h
    | rdTimeout =>
      simp only [readLoop, Except.error.injEq] at h
      rw [← h]
      rfl
    | rdError e =>
      simp only [readLoop, Except.error.injEq] at h
      rw [← h]
      rfl

/-! ## Lemmas: engine initialisation -/

theorem initialize_engines_preserves_inv (env : InitEnv) (s : EngineState)
    (h : EngineInv s) : EngineInv (_initialize_engines env s).1 := by
  unfold _initialize_engines
  by_cases hi : s.initialized = true
  · rw [if_pos hi]
    exact h
  · rw [if_neg hi]
    by_cases hm : env.modelAvailable = true
    · rw [hm]
      simp only [Bool.not_true, Bool.false_eq_true, if_false]
      cases hc : env.createEngine with
      | error e => exact h
      | ok eng =>
        dsimp only
        cases ha : env.analyzerCtor eng with
        | error e => exact h
        | ok a =>
          dsimp only
          cases han : env.anonymizerCtor with
          | error e =>
            dsimp only
            intro h2
            exact absurd h2 hi
          | ok an =>
            dsimp only
            intro _
            exact ⟨rfl, rfl⟩
    · rw [Bool.not_eq_true] at hm
      rw [hm]
      simp only [Bool.not_false, if_true]
      exact h

theorem initialize_engines_of_initialized (env : InitEnv) (s : EngineState)
    (h : s.initialized = true) : _initialize_engines env s = (s, none) := by
  unfold _initialize_engines
  rw [if_pos h]

theorem initialize_engines_failure (env : InitEnv) (s : EngineState) (e : String)
    (h : (_initialize_engines env s).2 = some e) :
    (_initialize_engines env s).1.initialized = false ∧
      (_initialize_engines env s).1.anonymizer = s.anonymizer ∧
      s.initialized = false := by
  obtain ⟨ma, ce, actor, anctor⟩ := env
  by_cases hi : s.initialized = true
  · rw [initialize_engines_of_initialized _ _ hi] at h
    simp at h
  · rw [Bool.not_eq_true] at hi
    cases ma with
    | false => simp [_initialize_engines, hi]
    | true =>
      cases ce with
      | error e2 => simp [_initialize_engines, hi]
      | ok eng =>
        cases ha : actor eng with
        | error e2 => simp [_initialize_engines, hi, ha]
        | ok a =>
          cases anctor with
          | error e2 => simp [_initialize_engines, hi, ha]
          | ok an =>
            simp [_initialize_engines, hi, ha] at h

theorem initialize_engines_retry_succeeds (env : InitEnv) (s : EngineState)
    (hm : env.modelAvailable = true) (eng a an : Nat)
    (hc : env.createEngine = .ok eng) (ha : env.analyzerCtor eng = .ok a)
    (han : env.anonymizerCtor = .ok an) (hi : s.initialized = false) :
    _initialize_engines env s = (⟨some a, some an, true⟩, none) := by
  obtain ⟨ma, ce, actor, anctor⟩ := env
  simp only at hm hc ha han
  subst hm hc han
  simp only [_initialize_engines, hi, Bool.false_eq_true, if_false, Bool.not_true, ha]

theorem get_analyzer_of_initialized (env : InitEnv) (s : EngineState)
    (h : s.initialized = true) : get_analyzer env s = (s, .ok s.analyzer) := by
  unfold get_analyzer
  rw [h]
  simp

theorem get_anonymizer_of_initialized (env : InitEnv) (s : EngineState)
    (h : s.initialized = true) : get_anonymizer env s = (s, .ok s.anonymizer) := by
  unfold get_anonymizer
  rw [h]
  simp

/-! ## Claim C3 -/

/-- C3: on every exit path of `download_model_with_progress` after the
temporary download file has been created — success, incomplete transfer,
read timeout, extraction error, or any other failure — the temporary file is
removed before the function returns (and on the paths before its creation it
was never created). -/
theorem c3_temp_file_always_removed (env : DlEnv) :
    (download_model_with_progress env).tmpExists = false := by
  obtain ⟨mk, co, cm, oc, ex⟩ := env
  cases mk with
  | false => rfl
  | true =>
    cases co with
    | false => rfl
    | true =>
      cases oc with
      | hung => rfl
      | connFailed m => rfl
      | connected total reads =>
        show (match readLoop reads 0 true with
          | .error r => r
          | .ok downloaded =>
            if 0 < total ∧ downloaded < total then
              ⟨false, "Download unvollständig", true, removeTmp true⟩
            else
              match ex with
              | .tarErr e => ⟨false, "Fehler beim Entpacken: " ++ e, true, removeTmp true⟩
              | .otherErr e => ⟨false, "Unerwarteter Fehler: " ++ e, true, removeTmp true⟩
              | .extractOk =>
                ⟨true, "Modell erfolgreich heruntergeladen und installiert.",
                  true, removeTmp true⟩).tmpExists = false
        cases hr : readLoop reads 0 true with
        | error r => exact readLoop_error_tmp reads 0 true r hr
        | ok downloaded =>
          dsimp only
          by_cases hlt : 0 < total ∧ downloaded < total
          · rw [if_pos hlt]
            rfl
          · rw [if_neg hlt]
            cases ex <;> rfl

/-! ## Claim C10 -/

/-- C10 (amended): the initialisation state keeps the invariant that
`_initialized` implies both engine instances are present; once initialised,
`_initialize_engines` is a no-op and `get_analyzer` / `get_anonymizer`
return the stored instances with the state unchanged; if initialisation
raises, `_initialized` stays false and `_anonymizer` keeps its previous
value (`None` on the lifecycle's reachable states) — though `_analyzer` may
already have been assigned when the failure occurred in the anonymizer
construction — and a later call with working collaborators initialises
successfully rather than returning `None` or staying stuck. -/
theorem c10_engine_init_state (env : InitEnv) (s : EngineState) :
    EngineInv initialEngineState ∧
    (EngineInv s → EngineInv (_initialize_engines env s).1) ∧
    (s.initialized = true →
      _initialize_engines env s = (s, none) ∧
      get_analyzer env s = (s, .ok s.analyzer) ∧
      get_anonymizer env s = (s, .ok s.anonymizer)) ∧
    (∀ e, (_initialize_engines env s).2 = some e →
      (_initialize_engines env s).1.initialized = false ∧
      (_initialize_engines env s).1.anonymizer = s.anonymizer) ∧
    (∀ eng a an, env.modelAvailable = true → env.createEngine = .ok eng →
      env.analyzerCtor eng = .ok a → env.anonymizerCtor = .ok an →
      s.initialized = false →
      _initialize_engines env s = (⟨some a, some an, true⟩, none)) := by
  refine ⟨?_, ?_, ?_, ?_, ?_⟩
  · intro h
    simp [initialEngineState] at h
  · exact initialize_engines_preserves_inv env s
  · intro h
    exact ⟨initialize_engines_of_initialized env s h,
      get_analyzer_of_initialized env s h, get_anonymizer_of_initialized env s h⟩
  · intro e he
    have := initialize_engines_failure env s e he
    exact ⟨this.1, this.2.1⟩
  · intro eng a an hm hc ha han hi
    exact initialize_engines_retry_succeeds env s hm eng a an hc ha han hi

/-- C10 witness: the theorem applied to a concrete environment and the
initial state, with every hypothesis discharged on concrete data. -/
theorem c10_engine_init_state_witness :
    (_initialize_engines
        ⟨true, .ok 0, fun e => .ok (e + 1), .ok 5⟩ initialEngineState) =
      (⟨some 1, some 5, true⟩, none) :=
  (c10_engine_init_state ⟨true, .ok 0, fun e => .ok (e + 1), .ok 5⟩
    initialEngineState).2.2.2.2 0 1 5 rfl rfl rfl rfl rfl

/-- C10 counterexample: the claim as stated says that whenever
`_initialize_engines` raises, both instances remain `None`; but when the
analyzer construction succeeds and the anonymizer construction raises, the
call raises while `_analyzer` is already assigned. -/
theorem c10_engine_init_state_counterexample :
    (_initialize_engines ⟨true, .ok 0, fun e => .ok (e + 1), .error "AnonymizerEngine raised"⟩
        initialEngineState).2 = some "AnonymizerEngine raised" ∧
    (_initialize_engines ⟨true, .ok 0, fun e => .ok (e + 1), .error "AnonymizerEngine raised"⟩
        initialEngineState).1.analyzer ≠ none := by
  constructor
  · rfl
  · intro h
    simp [_initialize_engines, initialEngineState] at h

/-! ## Lemmas: non-matching blacklists leave the text unchanged -/

theorem string_mk_toList (s : String) : String.mk s.toList = s := by
  cases s
  rfl

theorem map_self_of_eq {α : Type} {f : α → α} :
    ∀ {l : List α}, (∀ a ∈ l, f a = a) → l.map f = l := by
  intro l
  induction l with
  | nil => intro _; rfl
  | cons x xs ih =>
    intro h
    simp only [List.map_cons]
    rw [h x (by simp), ih (fun a ha => h a (by simp [ha]))]

theorem replaceTerm_of_not_contains (t : List Char) :
    ∀ (s : List Char), containsCI t s = false → replaceTerm t s = s := by
  intro s
  induction s with
  | nil => intro _; rfl
  | cons c rest ih =>
    intro h
    unfold containsCI at h
    rw [Bool.or_eq_false_iff] at h
    rw [replaceTerm_cons, h.1]
    simp only [Bool.false_eq_true, if_false]
    rw [ih h.2]

theorem blacklistExactL_of_not_contains :
    ∀ (terms : List (List Char)) (s : List Char),
      (∀ t ∈ terms, containsCI t s = false) → blacklistExactL terms s = s := by
  intro terms
  induction terms with
  | nil => intro s _; rfl
  | cons t ts ih =>
    intro s h
    show blacklistExactL ts (replaceTerm t s) = s
    rw [replaceTerm_of_not_contains t s (h t (by simp))]
    exact ih s (fun u hu => h u (by simp [hu]))

theorem fuzzyL_of_no_match (terms : List (List Char)) (thr : Nat) (s : List Char)
    (h : ∀ tok ∈ pySplit s, skipTok tok = false → shouldReplace terms thr tok = false) :
    fuzzyL terms thr s = s := by
  unfold fuzzyL
  rw [map_self_of_eq, joinL_pySplit]
  intro tok htok
  unfold procTok
  by_cases hs : skipTok tok = true
  · rw [if_pos hs]
  · rw [Bool.not_eq_true] at hs
    rw [hs]
    simp only [Bool.false_eq_true, if_false]
    rw [h tok htok hs]
    simp

theorem procTok_no_terms (thr : Nat) (tok : List Char) : procTok [] thr tok = tok := by
  unfold procTok shouldReplace
  simp

theorem blacklist_replace_empty_terms (txt : String) (fuzzy : Bool) (thr : Nat) :
    blacklist_replace txt [] fuzzy thr = txt := by
  unfold blacklist_replace
  simp

/-! ## Claim C8 -/

/-- C8: an empty term list returns the input unchanged; the token/delimiter
segmentation concatenates back to the original text byte-for-byte; and in
either mode a term list with no match anywhere in the text (no
case-insensitive occurrence in exact mode; no token passing the per-token
decision in fuzzy mode) returns the input text byte-for-byte. -/
theorem c8_non_matching_identity (txt : String) (terms : List String)
    (fuzzy : Bool) (thr : Nat) :
    blacklist_replace txt [] fuzzy thr = txt ∧
    joinL (pySplit txt.toList) = txt.toList ∧
    (fuzzy = false →
      (∀ t ∈ cleanTerms terms, containsCI t.toList txt.toList = false) →
      blacklist_replace txt terms fuzzy thr = txt) ∧
    (fuzzy = true →
      (∀ tok ∈ pySplit txt.toList, skipTok tok = false →
        shouldReplace ((cleanTerms terms).map String.toList) thr tok = false) →
      blacklist_replace txt terms fuzzy thr = txt) := by
  refine ⟨blacklist_replace_empty_terms txt fuzzy thr, joinL_pySplit txt.toList, ?_, ?_⟩
  · intro hf h
    subst hf
    unfold blacklist_replace
    by_cases h1 : terms = [] ∨ txt = ""
    · rw [if_pos h1]
    · rw [if_neg h1]
      by_cases h2 : cleanTerms terms = []
      · simp only [h2, if_pos]
      · rw [if_neg h2]
        simp only [Bool.false_eq_true, if_true]
        rw [blacklistExactL_of_not_contains]
        · exact string_mk_toList txt
        · intro t ht
          rcases List.mem_map.mp ht with ⟨u, hu, rfl⟩
          exact h u hu
  · intro hf h
    subst hf
    unfold blacklist_replace
    by_cases h1 : terms = [] ∨ txt = ""
    · rw [if_pos h1]
    · rw [if_neg h1]
      by_cases h2 : cleanTerms terms = []
      · simp only [h2, if_pos]
      · rw [if_neg h2]
        simp only [if_neg (by simp : ¬(true = false))]
        rw [fuzzyL_of_no_match _ _ _ h]
        exact string_mk_toList txt

/-- C8 witness: a non-matching blacklist on a concrete clinical sentence
returns it byte-for-byte (fuzzy mode). -/
theorem c8_non_matching_identity_witness :
    blacklist_replace "Herr Meier kam." ["xyz"] true 85 = "Herr Meier kam." :=
  (c8_non_matching_identity "Herr Meier kam." ["xyz"] true 85).2.2.2 rfl (by decide)

/-! ## Lemmas: fuzzy decision vs the specified criterion -/

theorem fuzzRatioGe_iff_ratioQ (a b : List Char) (thr : Nat)
    (h : 0 < a.length + b.length) :
    fuzzRatioGe a b thr = true ↔ (thr : ℚ) ≤ ratioQ a b := by
  unfold fuzzRatioGe ratioQ
  rw [decide_eq_true_eq, Rat.mkRat_eq_div]
  have hq : (0 : ℚ) < ((a.length + b.length : Nat) : ℚ) := by exact_mod_cast h
  rw [le_div_iff hq]
  constructor
  · intro hle
    exact_mod_cast hle
  · intro hle
    exact_mod_cast hle

theorem shouldReplace_iff (terms : List (List Char)) (thr : Nat) (tok : List Char)
    (htok : tok ≠ []) :
    shouldReplace terms thr tok = true ↔ specReplaceCrit terms thr tok := by
  unfold shouldReplace specReplaceCrit
  rw [List.any_eq_true]
  refine exists_congr fun t => ?_
  rw [and_congr_right_iff]
  intro _
  rw [Bool.or_eq_true, Bool.and_eq_true, decide_eq_true_eq, decide_eq_true_eq]
  have hpos : 0 < (tok.map pyLower).length + (t.map pyLower).length := by
    simp only [List.length_map]
    have : 0 < tok.length := List.length_pos.mpr htok
    omega
  rw [fuzzRatioGe_iff_ratioQ _ _ thr hpos]

theorem skipTok_false_ne_nil {tok : List Char} (h : skipTok tok = false) : tok ≠ [] := by
  intro hnil
  subst hnil
  simp [skipTok] at h

/-! ## Claim C7 -/

/-- C7: in fuzzy mode the output is the concatenation of the per-token
results, where a non-delimiter token is replaced by the placeholder exactly
when it equals some clean term case-insensitively or its length differs from
the term's by at most 2 and the similarity ratio of the lower-cased forms is
at or above the threshold; in particular `"Müller"` is replaced by blacklist
`["Müler"]` at threshold 85 and kept at threshold 99. -/
theorem c7_fuzzy_token_criterion (txt : String) (terms : List String) (thr : Nat) :
    ((blacklist_replace txt terms true thr).toList =
      joinL ((pySplit txt.toList).map
        (procTok ((cleanTerms terms).map String.toList) thr))) ∧
    (∀ tok, tok ∈ pySplit txt.toList → skipTok tok = false →
      procTok ((cleanTerms terms).map String.toList) thr tok =
        (if specReplaceCrit ((cleanTerms terms).map String.toList) thr tok
          then PHL else tok)) ∧
    blacklist_replace "Herr Müller kam." ["Müler"] true 85 = "Herr <ANONYM> kam." ∧
    blacklist_replace "Herr Müller kam." ["Müler"] true 99 = "Herr Müller kam." := by
  refine ⟨?_, ?_, by decide, by decide⟩
  · unfold blacklist_replace
    by_cases h1 : terms = [] ∨ txt = ""
    · rw [if_pos h1]
      rcases h1 with h1 | h1
      · subst h1
        show txt.toList = joinL ((pySplit txt.toList).map (procTok [] thr))
        rw [map_self_of_eq (fun tok _ => procTok_no_terms thr tok), joinL_pySplit]
      · subst h1
        rfl
    · rw [if_neg h1]
      by_cases h2 : cleanTerms terms = []
      · simp only [h2, if_pos]
        show txt.toList = joinL ((pySplit txt.toList).map (procTok [] thr))
        rw [map_self_of_eq (fun tok _ => procTok_no_terms thr tok), joinL_pySplit]
      · rw [if_neg h2]
        simp only [if_neg (by simp : ¬(true = false))]
        rfl
  · intro tok _ hskip
    unfold procTok
    rw [hskip]
    simp only [Bool.false_eq_true, if_false]
    by_cases hc : specReplaceCrit ((cleanTerms terms).map String.toList) thr tok
    · rw [if_pos hc]
      rw [(shouldReplace_iff _ thr tok (skipTok_false_ne_nil hskip)).mpr hc]
      simp
    · rw [if_neg hc]
      have : shouldReplace ((cleanTerms terms).map String.toList) thr tok = false := by
        rw [← Bool.not_eq_true]
        intro hst
        exact hc ((shouldReplace_iff _ thr tok (skipTok_false_ne_nil hskip)).mp hst)
      rw [this]
      simp

/-- C7 witness: the token criterion applied to the concrete token
`"Müller"` of the example text, whose criterion holds at threshold 85. -/
theorem c7_fuzzy_token_criterion_witness :
    procTok ((cleanTerms ["Müler"]).map String.toList) 85 "Müller".toList = PHL := by
  rw [(c7_fuzzy_token_criterion "Herr Müller kam." ["Müler"] 85).2.1
    "Müller".toList (by decide) (by decide)]
  rw [if_pos (by decide)]

/-! ## Lemmas: fuzzy mode is idempotent -/

theorem procTok_nil (terms : List (List Char)) (thr : Nat) :
    procTok terms thr [] = [] := rfl

theorem procTok_all_not_delim (terms : List (List Char)) (thr : Nat)
    (tok : List Char) (h : ∀ c ∈ tok, isDelim c = false) :
    ∀ c ∈ procTok terms thr tok, isDelim c = false := by
  unfold procTok
  by_cases hs : skipTok tok = true
  · rw [if_pos hs]; exact h
  · rw [if_neg hs]
    by_cases hr : shouldReplace terms thr tok = true
    · rw [if_pos hr]
      intro c hc
      have : PHL.all (fun c => !isDelim c) = true := by decide
      have := List.all_eq_true.mp this c hc
      simpa using this
    · rw [if_neg hr]; exact h

theorem procTok_of_all_delim (terms : List (List Char)) (thr : Nat)
    (run : List Char) (h : ∀ c ∈ run, isDelim c = true) :
    procTok terms thr run = run := by
  unfold procTok
  cases run with
  | nil => rfl
  | cons c r =>
    have hskip : skipTok (c :: r) = true := by
      unfold skipTok
      have : (c :: r).all isDelim = true := List.all_eq_true.mpr h
      simp [this]
    rw [if_pos hskip]

theorem procTok_ne_nil (terms : List (List Char)) (thr : Nat) (tok : List Char)
    (h : tok ≠ []) : procTok terms thr tok ≠ [] := by
  unfold procTok
  by_cases hs : skipTok tok = true
  · rw [if_pos hs]; exact h
  · rw [if_neg hs]
    by_cases hr : shouldReplace terms thr tok = true
    · rw [if_pos hr]; decide
    · rw [if_neg hr]; exact h

theorem cls_imp_delim (c0 : Char) :
    ∀ c, (if isSpaceChar c0 then isSpaceChar else isPunctDelim) c = true →
      isDelim c = true := by
  intro c
  by_cases h : isSpaceChar c0 = true
  · rw [if_pos h]
    intro hc
    unfold isDelim
    rw [hc]
    rfl
  · rw [if_neg h]
    intro hc
    unfold isDelim
    rw [hc]
    simp

theorem takeWhile_nil_of_head_false {p : Char → Bool} :
    ∀ {l : List Char}, (∀ c t, l = c :: t → p c = false) → l.takeWhile p = [] := by
  intro l h
  cases l with
  | nil => rfl
  | cons c t => exact takeWhile_head_false (h c t rfl)

theorem pySplit_all_not_delim (l : List Char) (h : ∀ c ∈ l, isDelim c = false) :
    pySplit l = [l] := by
  rw [pySplit_eq]
  have hdrop : l.dropWhile (fun c => !isDelim c) = [] :=
    dropWhile_all_eq (fun c hc => by simp [h c hc])
  rw [hdrop]
  rw [takeWhile_all_eq (fun c hc => by simp [h c hc])]

theorem proc_join_takeWhile_nil (terms : List (List Char)) (thr : Nat)
    (cls : Char → Bool) (hcls : ∀ c, cls c = true → isDelim c = true)
    (u : List Char) (hu : ∀ c t, u = c :: t → cls c = false) :
    (joinL ((pySplit u).map (procTok terms thr))).takeWhile cls = [] := by
  rw [pySplit_eq u]
  cases h : u.dropWhile (fun c => !isDelim c) with
  | nil =>
    simp only [List.map_cons, List.map_nil, joinL, List.append_nil]
    apply takeWhile_nil_of_head_false
    intro c t hc
    have hmem : c ∈ procTok terms thr (u.takeWhile (fun c => !isDelim c)) := by
      rw [hc]; simp
    have hnd : isDelim c = false := by
      refine procTok_all_not_delim terms thr _ ?_ c hmem
      intro d hd
      have := mem_takeWhile_sat hd
      simpa using this
    rw [← Bool.not_eq_true]
    intro hcl
    rw [hcls c hcl] at hnd
    simp at hnd
  | cons c r =>
    simp only [List.map_cons, joinL]
    have hrun : (c :: r).takeWhile (if isSpaceChar c then isSpaceChar else isPunctDelim) =
        c :: r.takeWhile (if isSpaceChar c then isSpaceChar else isPunctDelim) := by
      rw [List.takeWhile_cons]
      have hc : (!isDelim c) = false := dropWhile_head_false u h
      have hcd : isDelim c = true := by simpa using hc
      have : (if isSpaceChar c then isSpaceChar else isPunctDelim) c = true := by
        by_cases hsp : isSpaceChar c = true
        · rw [if_pos hsp]; exact hsp
        · rw [if_neg hsp]
          unfold isDelim at hcd
          rcases Bool.or_eq_true_iff.mp hcd with h2 | h2
          · exact absurd h2 hsp
          · exact h2
      rw [this]
      simp
    by_cases hseg : u.takeWhile (fun c => !isDelim c) = []
    · have hu2 : u = c :: r := by
        conv_lhs => rw [← List.takeWhile_append_dropWhile (p := fun c => !isDelim c) (l := u)]
        rw [hseg, h]
        rfl
      have hclsc : cls c = false := hu c r hu2
      rw [hseg, procTok_nil]
      simp only [List.nil_append]
      rw [procTok_of_all_delim terms thr _ (fun d hd => by
        have := mem_takeWhile_sat hd
        exact cls_imp_delim c d this)]
      rw [hrun]
      simp only [List.cons_append]
      exact takeWhile_head_false hclsc
    · have hne : procTok terms thr (u.takeWhile (fun c => !isDelim c)) ≠ [] :=
        procTok_ne_nil terms thr _ hseg
      obtain ⟨d, dt, hd⟩ := List.exists_cons_of_ne_nil hne
      rw [hd]
      simp only [List.cons_append]
      apply takeWhile_head_false
      have hmem : d ∈ procTok terms thr (u.takeWhile (fun c => !isDelim c)) := by
        rw [hd]; simp
      have hnd : isDelim d = false := by
        refine procTok_all_not_delim terms thr _ ?_ d hmem
        intro e he
        have := mem_takeWhile_sat he
        simpa using this
      rw [← Bool.not_eq_true]
      intro hcl
      rw [hcls d hcl] at hnd
      simp at hnd

theorem delim_imp_cls (c : Char) (h : isDelim c = true) :
    (if isSpaceChar c then isSpaceChar else isPunctDelim) c = true := by
  by_cases hsp : isSpaceChar c = true
  · rw [if_pos hsp]; exact hsp
  · rw [if_neg hsp]
    unfold isDelim at h
    rcases Bool.or_eq_true_iff.mp h with h2 | h2
    · exact absurd h2 hsp
    · exact h2

theorem pySplit_proc_roundtrip (terms : List (List Char)) (thr : Nat) :
    ∀ fuel (s : List Char), s.length ≤ fuel →
      pySplit (joinL ((pySplit s).map (procTok terms thr))) =
        (pySplit s).map (procTok terms thr) := by
  intro fuel
  induction fuel with
  | zero =>
    intro s hlen
    have : s = [] := List.eq_nil_of_length_eq_zero (Nat.le_zero.mp hlen)
    subst this
    rfl
  | succ f ih =>
    intro s hlen
    cases h : s.dropWhile (fun c => !isDelim c) with
    | nil =>
      rw [pySplit_eq_nil s h]
      simp only [List.map_cons, List.map_nil, joinL, List.append_nil]
      apply pySplit_all_not_delim
      apply procTok_all_not_delim
      intro d hd
      have := mem_takeWhile_sat hd
      simpa using this
    | cons c r =>
      have hc : (!isDelim c) = false := dropWhile_head_false s h
      have hcd : isDelim c = true := by simpa using hc
      have hclsc : (if isSpaceChar c then isSpaceChar else isPunctDelim) c = true :=
        delim_imp_cls c hcd
      have hrun_cons : (c :: r).takeWhile (if isSpaceChar c then isSpaceChar else isPunctDelim) =
          c :: r.takeWhile (if isSpaceChar c then isSpaceChar else isPunctDelim) := by
        rw [List.takeWhile_cons, hclsc]
        simp
      rw [pySplit_eq_cons s c r h]
      simp only [List.map_cons, joinL]
      rw [procTok_of_all_delim terms thr
        ((c :: r).takeWhile (if isSpaceChar c then isSpaceChar else isPunctDelim))
        (fun d hd => cls_imp_delim c d (mem_takeWhile_sat hd))]
      have hprocnd : ∀ d ∈ procTok terms thr (s.takeWhile (fun c => !isDelim c)),
          isDelim d = false := by
        apply procTok_all_not_delim
        intro d hd
        have := mem_takeWhile_sat hd
        simpa using this
      have hbAll : ∀ d ∈ procTok terms thr (s.takeWhile (fun c => !isDelim c)),
          (!isDelim d) = true := fun d hd => by simp [hprocnd d hd]
      have hrunAllCls : ∀ d ∈ (c :: r).takeWhile
          (if isSpaceChar c then isSpaceChar else isPunctDelim),
          (if isSpaceChar c then isSpaceChar else isPunctDelim) d = true :=
        fun d hd => mem_takeWhile_sat hd
      have hrtAllCls : ∀ d ∈ r.takeWhile
          (if isSpaceChar c then isSpaceChar else isPunctDelim),
          (if isSpaceChar c then isSpaceChar else isPunctDelim) d = true :=
        fun d hd => mem_takeWhile_sat hd
      have hu2 : ∀ c2 t2, (c :: r).dropWhile
          (if isSpaceChar c then isSpaceChar else isPunctDelim) = c2 :: t2 →
          (if isSpaceChar c then isSpaceChar else isPunctDelim) c2 = false :=
        fun c2 t2 hh => dropWhile_head_false _ hh
      have hf : (joinL ((pySplit ((c :: r).dropWhile
          (if isSpaceChar c then isSpaceChar else isPunctDelim))).map
            (procTok terms thr))).takeWhile
          (if isSpaceChar c then isSpaceChar else isPunctDelim) = [] :=
        proc_join_takeWhile_nil terms thr _ (cls_imp_delim c) _ hu2
      have hg := takeWhile_nil_dropWhile hf
      have hpc : (fun c => !isDelim c) c = false := by simpa using hc
      have hJd : (procTok terms thr (s.takeWhile (fun c => !isDelim c)) ++
          ((c :: r).takeWhile (if isSpaceChar c then isSpaceChar else isPunctDelim) ++
            joinL ((pySplit ((c :: r).dropWhile
              (if isSpaceChar c then isSpaceChar else isPunctDelim))).map
                (procTok terms thr)))).dropWhile (fun c => !isDelim c) =
          c :: (r.takeWhile (if isSpaceChar c then isSpaceChar else isPunctDelim) ++
            joinL ((pySplit ((c :: r).dropWhile
              (if isSpaceChar c then isSpaceChar else isPunctDelim))).map
                (procTok terms thr))) := by
        rw [dropWhile_append_all _ hbAll, hrun_cons, List.cons_append,
          List.dropWhile_cons]
        simp [hc]
      have hJt : (procTok terms thr (s.takeWhile (fun c => !isDelim c)) ++
          ((c :: r).takeWhile (if isSpaceChar c then isSpaceChar else isPunctDelim) ++
            joinL ((pySplit ((c :: r).dropWhile
              (if isSpaceChar c then isSpaceChar else isPunctDelim))).map
                (procTok terms thr)))).takeWhile (fun c => !isDelim c) =
          procTok terms thr (s.takeWhile (fun c => !isDelim c)) := by
        rw [takeWhile_append_all _ hbAll, hrun_cons, List.cons_append,
          takeWhile_head_false hpc, List.append_nil]
      rw [pySplit_eq_cons _ c _ hJd]
      have hlen2 : ((c :: r).dropWhile
          (if isSpaceChar c then isSpaceChar else isPunctDelim)).length ≤ f := by
        have h1 : (c :: r).length ≤ s.length := by
          rw [← h]
          exact dropWhile_length_le _ s
        have h2 := dropWhile_length_le
          (if isSpaceChar c then isSpaceChar else isPunctDelim) r
        have h3 : ((c :: r).dropWhile
            (if isSpaceChar c then isSpaceChar else isPunctDelim)).length ≤ r.length := by
          rw [List.dropWhile_cons, if_pos hclsc]
          exact h2
        simp only [List.length_cons] at h1
        omega
      rw [hJt]
      have hTW2 : (c :: (r.takeWhile (if isSpaceChar c then isSpaceChar else isPunctDelim) ++
          joinL ((pySplit ((c :: r).dropWhile
            (if isSpaceChar c then isSpaceChar else isPunctDelim))).map
              (procTok terms thr)))).takeWhile
            (if isSpaceChar c then isSpaceChar else isPunctDelim) =
          (c :: r).takeWhile (if isSpaceChar c then isSpaceChar else isPunctDelim) := by
        conv_lhs => rw [List.takeWhile_cons]
        rw [hclsc]
        simp only [if_true]
        conv_rhs => rw [hrun_cons]
        congr 1
        rw [takeWhile_append_all _ hrtAllCls, hf, List.append_nil]
      have hDW2 : (c :: (r.takeWhile (if isSpaceChar c then isSpaceChar else isPunctDelim) ++
          joinL ((pySplit ((c :: r).dropWhile
            (if isSpaceChar c then isSpaceChar else isPunctDelim))).map
              (procTok terms thr)))).dropWhile
            (if isSpaceChar c then isSpaceChar else isPunctDelim) =
          joinL ((pySplit ((c :: r).dropWhile
            (if isSpaceChar c then isSpaceChar else isPunctDelim))).map
              (procTok terms thr)) := by
        conv_lhs => rw [List.dropWhile_cons]
        rw [hclsc]
        simp only [if_true]
        rw [dropWhile_append_all _ hrtAllCls, hg]
      rw [hTW2, hDW2, ih _ hlen2]

theorem procTok_idem (terms : List (List Char)) (thr : Nat) (tok : List Char) :
    procTok terms thr (procTok terms thr tok) = procTok terms thr tok := by
  unfold procTok
  by_cases hs : skipTok tok = true
  · rw [if_pos hs, if_pos hs]
  · rw [if_neg hs]
    by_cases hr : shouldReplace terms thr tok = true
    · rw [if_pos hr]
      have hsp : skipTok PHL = false := by decide
      rw [if_neg (by simp [hsp])]
      by_cases hp : shouldReplace terms thr PHL = true
      · rw [if_pos hp]
      · rw [if_neg hp]
    · rw [if_neg hr, if_neg hs, if_neg hr]

theorem fuzzyL_idem (terms : List (List Char)) (thr : Nat) (s : List Char) :
    fuzzyL terms thr (fuzzyL terms thr s) = fuzzyL terms thr s := by
  unfold fuzzyL
  rw [pySplit_proc_roundtrip terms thr s.length s le_rfl, List.map_map]
  congr 1
  apply List.map_congr_left
  intro tok _
  exact procTok_idem terms thr tok

/-! ## Claim C5 -/

/-- C5 (amended): in fuzzy mode `blacklist_replace` is idempotent for every
text, term list and threshold; in exact mode a second application can
rewrite the placeholders the first application introduced (a term that
matches inside `<ANONYM>` is replaced again), so idempotence holds only for
the fuzzy matcher. -/
theorem c5_fuzzy_idempotent (txt : String) (terms : List String) (thr : Nat) :
    blacklist_replace (blacklist_replace txt terms true thr) terms true thr =
      blacklist_replace txt terms true thr := by
  by_cases h1 : terms = [] ∨ txt = ""
  · rcases h1 with h1 | h1
    · subst h1
      rw [blacklist_replace_empty_terms, blacklist_replace_empty_terms]
    · subst h1
      have : blacklist_replace "" terms true thr = "" := by
        unfold blacklist_replace
        rw [if_pos (Or.inr rfl)]
      rw [this]
      exact this
  · have h1t : ¬terms = [] := fun hh => h1 (Or.inl hh)
    have h1x : ¬txt = "" := fun hh => h1 (Or.inr hh)
    by_cases h2 : cleanTerms terms = []
    · have hid : blacklist_replace txt terms true thr = txt := by
        unfold blacklist_replace
        rw [if_neg h1]
        simp only [h2, if_pos]
      rw [hid, hid]
    · have hmain : blacklist_replace txt terms true thr =
          String.mk (fuzzyL ((cleanTerms terms).map String.toList) thr txt.toList) := by
        unfold blacklist_replace
        rw [if_neg h1, if_neg h2]
        simp only [if_neg (by simp : ¬(true = false))]
      by_cases hy : blacklist_replace txt terms true thr = ""
      · rw [hy]
        unfold blacklist_replace
        rw [if_pos (Or.inr rfl)]
      · rw [hmain]
        unfold blacklist_replace
        rw [if_neg (by
          intro hor
          rcases hor with hh | hh
          · exact h1t hh
          · rw [hmain] at hy
            exact hy hh)]
        rw [if_neg h2]
        simp only [if_neg (by simp : ¬(true = false))]
        congr 1
        show fuzzyL ((cleanTerms terms).map String.toList) thr
            (String.mk (fuzzyL ((cleanTerms terms).map String.toList) thr txt.toList)).toList =
          fuzzyL ((cleanTerms terms).map String.toList) thr txt.toList
        exact fuzzyL_idem ((cleanTerms terms).map String.toList) thr txt.toList

/-- C5 counterexample: in exact mode a second application rewrites the
placeholder introduced by the first (`"anonym"` matches inside `<ANONYM>`),
so `blacklist_replace` is not idempotent for every fuzzy flag. -/
theorem c5_fuzzy_idempotent_counterexample :
    blacklist_replace (blacklist_replace "anonym" ["anonym"] false 85) ["anonym"] false 85 ≠
      blacklist_replace "anonym" ["anonym"] false 85 := by decide

/-! ## Lemmas: exact-mode commutation under disjoint character sets -/

theorem lstarts_take_eq : ∀ (x y : List Char), lstarts x y = true → y.take x.length = x := by
  intro x
  induction x with
  | nil => intro y _; rfl
  | cons a as ih =>
    intro y h
    cases y with
    | nil => simp [lstarts] at h
    | cons b bs =>
      unfold lstarts at h
      rw [Bool.and_eq_true, decide_eq_true_eq] at h
      simp only [List.length_cons, List.take_succ_cons]
      rw [h.1, ih bs h.2]

theorem lstarts_length_le : ∀ (x y : List Char), lstarts x y = true → x.length ≤ y.length := by
  intro x
  induction x with
  | nil => intro y _; simp
  | cons a as ih =>
    intro y h
    cases y with
    | nil => simp [lstarts] at h
    | cons b bs =>
      unfold lstarts at h
      rw [Bool.and_eq_true] at h
      simp only [List.length_cons]
      exact Nat.succ_le_succ (ih bs h.2)

theorem lstarts_append_self : ∀ (x y : List Char), lstarts x (x ++ y) = true := by
  intro x y
  induction x with
  | nil => rfl
  | cons a as ih =>
    show (decide (a = a) && lstarts as (as ++ y)) = true
    simp [ih]

theorem mAt_head_mem (t : List Char) (ht : t ≠ []) (d : Char) (x : List Char)
    (h : mAt t (d :: x) = true) : pyLower d ∈ t.map pyLower := by
  obtain ⟨e, t', rfl⟩ := List.exists_cons_of_ne_nil ht
  unfold mAt at h
  simp only [List.map_cons] at h
  unfold lstarts at h
  rw [Bool.and_eq_true, decide_eq_true_eq] at h
  rw [List.map_cons, h.1]
  simp

theorem mAt_nil_false (t : List Char) (ht : t ≠ []) : mAt t [] = false := by
  obtain ⟨e, t', rfl⟩ := List.exists_cons_of_ne_nil ht
  rfl

theorem replaceTerm_match (t : List Char) (ht : t ≠ []) (s : List Char)
    (hm : mAt t s = true) :
    replaceTerm t s = PHL ++ replaceTerm t (s.drop t.length) := by
  cases s with
  | nil =>
    rw [mAt_nil_false t ht] at hm
    simp at hm
  | cons c rest =>
    rw [replaceTerm_cons, if_pos hm]
    obtain ⟨e, t', rfl⟩ := List.exists_cons_of_ne_nil ht
    simp only [List.length_cons, Nat.add_sub_cancel, List.drop_succ_cons]

theorem replaceTerm_append_safe (t : List Char) (ht : t ≠ []) :
    ∀ (a b : List Char), (∀ d ∈ a, pyLower d ∉ t.map pyLower) →
      replaceTerm t (a ++ b) = a ++ replaceTerm t b := by
  intro a
  induction a with
  | nil => intro b _; rfl
  | cons d a' ih =>
    intro b hcond
    rw [List.cons_append, replaceTerm_cons]
    have hm : mAt t (d :: (a' ++ b)) ≠ true := by
      intro hmm
      exact hcond d (by simp) (mAt_head_mem t ht d _ hmm)
    rw [if_neg hm]
    rw [ih b (fun e he => hcond e (by simp [he]))]
    rfl

theorem mAt_take_front (t : List Char) (a X : List Char)
    (ha : a.map pyLower = t.map pyLower) : mAt t (a ++ X) = true := by
  unfold mAt
  rw [List.map_append, ← ha]
  exact lstarts_append_self _ _

theorem chDisj_notmem_ph (t : List Char) (h : chDisj t PHL) :
    ∀ d ∈ t, pyLower d ∉ PHL.map pyLower := by
  intro d hd hmem
  rcases List.mem_map.mp hmem with ⟨e, he, heq⟩
  exact h d hd e he heq.symm

theorem lstarts_replace_pres (t2 : List Char) (ht2 : t2 ≠ []) :
    ∀ (u t : List Char), (∀ d ∈ t, pyLower d ∉ PHL.map pyLower) →
      lstarts (t.map pyLower) ((replaceTerm t2 u).map pyLower) = true →
      lstarts (t.map pyLower) (u.map pyLower) = true := by
  intro u
  induction u with
  | nil =>
    intro t _ h
    simpa using h
  | cons d u' ih =>
    intro t hcond h
    by_cases hm : mAt t2 (d :: u') = true
    · cases t with
      | nil => rfl
      | cons e t' =>
        exfalso
        rw [replaceTerm_match t2 ht2 _ hm] at h
        have hph : PHL = '<' :: "ANONYM>".toList := by decide
        rw [hph] at h
        simp only [List.map_append, List.map_cons, List.cons_append] at h
        unfold lstarts at h
        rw [Bool.and_eq_true, decide_eq_true_eq] at h
        refine hcond e (by simp) ?_
        rw [hph]
        rw [List.map_cons, h.1]
        simp
    · rw [replaceTerm_cons, if_neg hm] at h
      cases t with
      | nil => rfl
      | cons e t' =>
        simp only [List.map_cons] at h ⊢
        unfold lstarts at h ⊢
        rw [Bool.and_eq_true, decide_eq_true_eq] at h
        rw [Bool.and_eq_true, decide_eq_true_eq]
        exact ⟨h.1, ih t' (fun x hx => hcond x (by simp [hx])) h.2⟩

theorem mAt_replace_pres (t1 t2 : List Char) (ht2 : t2 ≠ [])
    (hph : chDisj t1 PHL) (s : List Char)
    (h : mAt t1 (replaceTerm t2 s) = true) : mAt t1 s = true :=
  lstarts_replace_pres t2 ht2 s t1 (chDisj_notmem_ph t1 hph) h

theorem chDisj_symm {a b : List Char} (h : chDisj a b) : chDisj b a :=
  fun c hc d hd => (h d hd c hc).symm

theorem replaceTerm_comm_step (t1 t2 : List Char) (h1 : t1 ≠ []) (h2 : t2 ≠ [])
    (hdisj : chDisj t1 t2) (hph2 : chDisj t2 PHL) (s : List Char)
    (hA : mAt t1 s = true) :
    replaceTerm t1 (replaceTerm t2 s) =
      PHL ++ replaceTerm t1 (replaceTerm t2 (s.drop t1.length)) ∧
    replaceTerm t2 (replaceTerm t1 s) =
      PHL ++ replaceTerm t2 (replaceTerm t1 (s.drop t1.length)) := by
  have hlen : t1.length ≤ s.length := by
    have := lstarts_length_le (t1.map pyLower) (s.map pyLower) hA
    simpa using this
  have htake : (s.take t1.length).map pyLower = t1.map pyLower := by
    rw [List.map_take]
    have := lstarts_take_eq (t1.map pyLower) (s.map pyLower) hA
    rw [List.length_map] at this
    exact this
  have htlen : (s.take t1.length).length = t1.length := by
    rw [List.length_take]
    omega
  have hamem : ∀ d ∈ s.take t1.length, pyLower d ∉ t2.map pyLower := by
    intro d hd hmem
    have hda : pyLower d ∈ (s.take t1.length).map pyLower := List.mem_map.mpr ⟨d, hd, rfl⟩
    rw [htake] at hda
    rcases List.mem_map.mp hda with ⟨e, he, heq⟩
    rcases List.mem_map.mp hmem with ⟨g, hg, hgeq⟩
    exact hdisj e he g hg (by rw [heq, hgeq])
  have hphmem : ∀ d ∈ PHL, pyLower d ∉ t2.map pyLower := by
    intro d hd hmem
    rcases List.mem_map.mp hmem with ⟨g, hg, hgeq⟩
    exact hph2 g hg d hd hgeq
  have hsplit : s.take t1.length ++ s.drop t1.length = s := List.take_append_drop _ s
  constructor
  · conv_lhs => rw [← hsplit]
    rw [replaceTerm_append_safe t2 h2 _ _ hamem]
    rw [replaceTerm_match t1 h1 _ (mAt_take_front t1 _ _ htake)]
    congr 1
    have hdl : ∀ (a X : List Char), a.length = t1.length → (a ++ X).drop t1.length = X := by
      intro a X ha
      rw [← ha, List.drop_left]
    rw [hdl _ _ htlen]
  · rw [replaceTerm_match t1 h1 s hA]
    rw [replaceTerm_append_safe t2 h2 _ _ hphmem]

theorem replaceTerm_comm (t1 t2 : List Char) (h1 : t1 ≠ []) (h2 : t2 ≠ [])
    (hdisj : chDisj t1 t2) (hph1 : chDisj t1 PHL) (hph2 : chDisj t2 PHL) :
    ∀ (n : Nat) (s : List Char), s.length ≤ n →
      replaceTerm t1 (replaceTerm t2 s) = replaceTerm t2 (replaceTerm t1 s) := by
  intro n
  induction n with
  | zero =>
    intro s hlen
    have : s = [] := List.eq_nil_of_length_eq_zero (Nat.le_zero.mp hlen)
    subst this
    rfl
  | succ f ih =>
    intro s hlen
    by_cases hA : mAt t1 s = true
    · have hslen : 1 ≤ s.length := by
        have := lstarts_length_le (t1.map pyLower) (s.map pyLower) hA
        have h1l : 1 ≤ t1.length := by
          cases t1 with
          | nil => exact absurd rfl h1
          | cons _ _ => simp
        simp only [List.length_map] at this
        omega
      obtain ⟨e1, e2⟩ := replaceTerm_comm_step t1 t2 h1 h2 hdisj hph2 s hA
      rw [e1, e2]
      congr 1
      apply ih
      rw [List.length_drop]
      have h1l : 1 ≤ t1.length := by
        cases t1 with
        | nil => exact absurd rfl h1
        | cons _ _ => simp
      omega
    · by_cases hB : mAt t2 s = true
      · have hslen : 1 ≤ s.length := by
          have := lstarts_length_le (t2.map pyLower) (s.map pyLower) hB
          have h2l : 1 ≤ t2.length := by
            cases t2 with
            | nil => exact absurd rfl h2
            | cons _ _ => simp
          simp only [List.length_map] at this
          omega
        obtain ⟨e1, e2⟩ := replaceTerm_comm_step t2 t1 h2 h1 (chDisj_symm hdisj) hph1 s hB
        rw [e1, e2]
        congr 1
        apply ih
        rw [List.length_drop]
        have h2l : 1 ≤ t2.length := by
          cases t2 with
          | nil => exact absurd rfl h2
          | cons _ _ => simp
        omega
      · cases s with
        | nil => rfl
        | cons c rest =>
          have hf2 : replaceTerm t2 (c :: rest) = c :: replaceTerm t2 rest := by
            rw [replaceTerm_cons, if_neg hB]
          have hf1 : replaceTerm t1 (c :: rest) = c :: replaceTerm t1 rest := by
            rw [replaceTerm_cons, if_neg hA]
          have hA2 : mAt t1 (c :: replaceTerm t2 rest) ≠ true := by
            intro hmm
            rw [← hf2] at hmm
            exact hA (mAt_replace_pres t1 t2 h2 hph1 _ hmm)
          have hB2 : mAt t2 (c :: replaceTerm t1 rest) ≠ true := by
            intro hmm
            rw [← hf1] at hmm
            exact hB (mAt_replace_pres t2 t1 h1 hph2 _ hmm)
          rw [hf2, hf1, replaceTerm_cons, if_neg hA2, replaceTerm_cons, if_neg hB2]
          congr 1
          apply ih
          simp only [List.length_cons] at hlen
          omega

theorem exactSafe_of_perm {l1 l2 : List (List Char)} (hp : l1.Perm l2)
    (h : ExactSafe l1) : ExactSafe l2 := by
  constructor
  · intro t ht
    exact h.1 t (hp.symm.subset ht)
  · exact (hp.pairwise_iff (fun hxy => chDisj_symm hxy)).mp h.2

theorem exactSafe_tail {x : List Char} {l : List (List Char)}
    (h : ExactSafe (x :: l)) : ExactSafe l := by
  constructor
  · intro t ht
    exact h.1 t (List.mem_cons_of_mem x ht)
  · exact (List.pairwise_cons.mp h.2).2

theorem blacklistExactL_perm :
    ∀ {terms1 terms2 : List (List Char)}, terms1.Perm terms2 → ExactSafe terms1 →
      ∀ s, blacklistExactL terms1 s = blacklistExactL terms2 s := by
  intro terms1 terms2 hp
  induction hp with
  | nil => intro _ s; rfl
  | cons x l12 ih =>
    intro hsafe s
    show blacklistExactL _ (replaceTerm x s) = blacklistExactL _ (replaceTerm x s)
    exact ih (exactSafe_tail hsafe) (replaceTerm x s)
  | swap a b l =>
    intro hsafe s
    show blacklistExactL l (replaceTerm a (replaceTerm b s)) =
      blacklistExactL l (replaceTerm b (replaceTerm a s))
    congr 1
    have hbmem : b ∈ b :: a :: l := by simp
    have hamem : a ∈ b :: a :: l := by simp
    have hb := hsafe.1 b hbmem
    have ha := hsafe.1 a hamem
    have hba : chDisj b a := (List.pairwise_cons.mp hsafe.2).1 a (by simp)
    exact replaceTerm_comm a b ha.1 hb.1 (chDisj_symm hba) ha.2 hb.2 s.length s le_rfl
  | trans h12 h23 ih12 ih23 =>
    intro hsafe s
    rw [ih12 hsafe s]
    exact ih23 (exactSafe_of_perm h12 hsafe) s

theorem cleanTerms_perm {ts1 ts2 : List String} (h : ts1.Perm ts2) :
    (cleanTerms ts1).Perm (cleanTerms ts2) :=
  (h.filter _).map _

/-! ## Claim C6 -/

/-- C6 (amended): in exact mode the output can depend on the order of the
terms when matches overlap or a term re-matches text the placeholder
introduced; for term lists whose cleaned terms use pairwise disjoint
character sets (case-insensitively) that are also disjoint from the
placeholder's characters, every permutation of the term list produces the
same output. -/
theorem c6_exact_order_independent (txt : String) (ts1 ts2 : List String) (thr : Nat)
    (hperm : ts1.Perm ts2)
    (hsafe : ExactSafe ((cleanTerms ts1).map String.toList)) :
    blacklist_replace txt ts1 false thr = blacklist_replace txt ts2 false thr := by
  unfold blacklist_replace
  by_cases h1 : ts1 = [] ∨ txt = ""
  · rcases h1 with h1 | h1
    · subst h1
      have h2 : ts2 = [] := hperm.symm.eq_nil
      subst h2
      rfl
    · subst h1
      rw [if_pos (Or.inr rfl), if_pos (Or.inr rfl)]
  · have h2 : ¬(ts2 = [] ∨ txt = "") := by
      intro hor
      rcases hor with hh | hh
      · subst hh
        exact h1 (Or.inl hperm.eq_nil)
      · exact h1 (Or.inr hh)
    rw [if_neg h1, if_neg h2]
    have hcp : (cleanTerms ts1).Perm (cleanTerms ts2) := cleanTerms_perm hperm
    by_cases h3 : cleanTerms ts1 = []
    · have h4 : cleanTerms ts2 = [] := by
        rw [h3] at hcp
        exact hcp.symm.eq_nil
      simp only [h3, h4, if_pos]
    · have h4 : ¬cleanTerms ts2 = [] := by
        intro hh
        rw [hh] at hcp
        exact h3 hcp.eq_nil
      rw [if_neg h3, if_neg h4]
      rw [if_pos rfl, if_pos rfl]
      congr 1
      exact blacklistExactL_perm (hcp.map String.toList) hsafe txt.toList

/-- C6 witness: two orders of a character-disjoint blacklist give the same
exact-mode output on a concrete text. -/
theorem c6_exact_order_independent_witness :
    blacklist_replace "bcd efg" ["bcd", "efg"] false 85 =
      blacklist_replace "bcd efg" ["efg", "bcd"] false 85 :=
  c6_exact_order_independent "bcd efg" ["bcd", "efg"] ["efg", "bcd"] 85
    (List.Perm.swap "efg" "bcd" []) (by decide)

/-- C6 counterexample: with overlapping matches the order of terms changes
the exact-mode output: `["ab", "bc"]` and its permutation `["bc", "ab"]`
disagree on `"abc"`. -/
theorem c6_exact_order_independent_counterexample :
    (["ab", "bc"] : List String).Perm ["bc", "ab"] ∧
    blacklist_replace "abc" ["ab", "bc"] false 85 ≠
      blacklist_replace "abc" ["bc", "ab"] false 85 :=
  ⟨List.Perm.swap "bc" "ab" [], by decide⟩

/-! ## Lemmas: the row loop of `anonymize_dataframe` -/

theorem getD_set_self {α : Type} [Inhabited α] :
    ∀ (l : List α) (i : Nat), i < l.length → ∀ (v : α),
      (l.set i v).getD i default = v := by
  intro l
  induction l with
  | nil => intro i h; simp at h
  | cons a t ih =>
    intro i h v
    cases i with
    | zero => rfl
    | succ j =>
      show (t.set j v).getD j default = v
      exact ih j (by simpa using h) v

theorem getD_set_ne {α : Type} [Inhabited α] :
    ∀ (l : List α) (i j : Nat), i ≠ j → ∀ (v : α),
      (l.set i v).getD j default = l.getD j default := by
  intro l
  induction l with
  | nil => intro i j _ v; simp
  | cons a t ih =>
    intro i j hne v
    cases i with
    | zero =>
      cases j with
      | zero => exact absurd rfl hne
      | succ k => rfl
    | succ i' =>
      cases j with
      | zero => rfl
      | succ k =>
        show (t.set i' v).getD k default = t.getD k default
        exact ih i' k (fun hh => hne (by rw [hh])) v

theorem set_getD_self {α : Type} [Inhabited α] :
    ∀ (l : List α) (i : Nat), i < l.length → l.set i (l.getD i default) = l := by
  intro l
  induction l with
  | nil => intro i h; simp at h
  | cons a t ih =>
    intro i h
    cases i with
    | zero => rfl
    | succ j =>
      show a :: t.set j (t.getD j default) = a :: t
      rw [ih j (by simpa using h)]


theorem rowRes_skip (ctx : Ctx) (free : Prop) [Decidable free] (r : PyRow)
    (h : skipRow r = true) : rowRes ctx free r = r := by
  unfold rowRes
  cases hv : r.value with
  | pnum b v => rfl
  | pstr s =>
    unfold skipRow at h
    rw [hv] at h
    dsimp only
    rw [if_pos (by exact_mod_cast of_decide_eq_true h)]
  | pnone =>
    dsimp only
    rw [if_pos (by decide : (pyStr PyValue.pnone).length < 5)]

theorem skipRow_pstr_cases (r : PyRow) (h : skipRow r = false) :
    ∃ s : String, r.value = .pstr s ∧ ¬s.length < 5 := by
  unfold skipRow at h
  cases hv : r.value with
  | pnum b v => rw [hv] at h; simp at h
  | pstr s =>
    rw [hv] at h
    refine ⟨s, rfl, ?_⟩
    exact of_decide_eq_false h
  | pnone =>
    rw [hv] at h
    exact absurd h (by decide)

theorem procRowWrite_spec (ctx : Ctx) (st : LoopSt) (idx : Nat)
    (h : idx < st.rows.length) (hns : skipRow (st.rows.getD idx default) = false) :
    (procRowWrite ctx st idx (pyStr (st.rows.getD idx default).value)).rows =
      st.rows.set idx
        (rowRes ctx (idx ∈ ctx.freetext) (st.rows.getD idx default)) ∧
    (procRowWrite ctx st idx (pyStr (st.rows.getD idx default).value)).processed =
      st.processed ∧
    (procRowWrite ctx st idx (pyStr (st.rows.getD idx default).value)).trace = st.trace ∧
    (∀ w ∈ (procRowWrite ctx st idx (pyStr (st.rows.getD idx default).value)).writes,
      w ∈ st.writes ∨ w.1 = ctx.freshId) := by
  obtain ⟨s, hv, hlen⟩ := skipRow_pstr_cases _ hns
  unfold procRowWrite rowRes
  rw [hv]
  dsimp only
  simp only [pyStr]
  rw [if_neg hlen]
  by_cases hft : idx ∈ ctx.freetext
  · simp only [hft, if_pos]
    cases hac : anonymize_content ctx.nlp s ctx.clean ctx.fuzzy ctx.thr with
    | ok w =>
      refine ⟨rfl, rfl, rfl, ?_⟩
      intro w2 hw2
      unfold writeAt at hw2
      dsimp only at hw2
      rcases List.mem_append.mp hw2 with hl | hr
      · exact Or.inl hl
      · simp only [List.mem_singleton] at hr
        subst hr
        exact Or.inr rfl
    | error e =>
      by_cases hcl : ctx.clean ≠ []
      · rw [if_pos hcl, if_pos hcl]
        refine ⟨rfl, rfl, rfl, ?_⟩
        intro w2 hw2
        unfold writeAt at hw2
        dsimp only at hw2
        rcases List.mem_append.mp hw2 with hl | hr
        · exact Or.inl hl
        · simp only [List.mem_singleton] at hr
          subst hr
          exact Or.inr rfl
      · rw [if_neg hcl, if_neg hcl]
        exact ⟨(set_getD_self st.rows idx h).symm, rfl, rfl, fun w hw => Or.inl hw⟩
  · simp only [hft, if_neg, if_false]
    by_cases hcl : ctx.clean ≠ []
    · rw [if_pos hcl, if_pos hcl]
      refine ⟨rfl, rfl, rfl, ?_⟩
      intro w2 hw2
      unfold writeAt at hw2
      dsimp only at hw2
      rcases List.mem_append.mp hw2 with hl | hr
      · exact Or.inl hl
      · simp only [List.mem_singleton] at hr
        subst hr
        exact Or.inr rfl
    · rw [if_neg hcl, if_neg hcl]
      exact ⟨(set_getD_self st.rows idx h).symm, rfl, rfl, fun w hw => Or.inl hw⟩

theorem procRow_spec (ctx : Ctx) (st : LoopSt) (idx : Nat)
    (h : idx < st.rows.length) :
    (procRow ctx st idx).rows =
      st.rows.set idx
        (rowRes ctx (idx ∈ ctx.freetext) (st.rows.getD idx default)) ∧
    (procRow ctx st idx).processed = st.processed + 1 ∧
    (procRow ctx st idx).trace = st.trace ++
      (if skipRow (st.rows.getD idx default) then []
       else if ctx.hasCallback && (st.processed + 1) % 100 == 0 then
         [((st.processed + 1 : Nat) : ℚ) / (ctx.total : ℚ)]
       else []) ∧
    (∀ w ∈ (procRow ctx st idx).writes, w ∈ st.writes ∨ w.1 = ctx.freshId) := by
  by_cases hskip : skipRow (st.rows.getD idx default) = true
  · have hres : procRow ctx st idx = { st with processed := st.processed + 1 } := by
      unfold procRow
      unfold skipRow at hskip
      cases hv : (st.rows.getD idx default).value with
      | pnum b v => rfl
      | pstr s =>
        rw [hv] at hskip
        dsimp only
        rw [if_pos (by exact_mod_cast of_decide_eq_true hskip)]
      | pnone =>
        dsimp only
        rw [if_pos (by decide : (pyStr PyValue.pnone).length < 5)]
    rw [hres, rowRes_skip ctx _ _ hskip, set_getD_self st.rows idx h]
    refine ⟨rfl, rfl, ?_, fun w hw => Or.inl hw⟩
    rw [if_pos hskip]
    simp
  · rw [Bool.not_eq_true] at hskip
    obtain ⟨s, hv, hlen⟩ := skipRow_pstr_cases _ hskip
    obtain ⟨e1, e2, e3, e4⟩ := procRowWrite_spec ctx st idx h hskip
    rw [hv] at e1 e2 e3 e4
    simp only [pyStr] at e1 e2 e3 e4
    have hres : procRow ctx st idx =
        (let st1 := procRowWrite ctx st idx s
        let st2 := { st1 with processed := st1.processed + 1 }
        if ctx.hasCallback && st2.processed % 100 == 0 then
          { st2 with trace := st2.trace ++ [(st2.processed : ℚ) / (ctx.total : ℚ)] }
        else st2) := by
      unfold procRow
      rw [hv]
      dsimp only
      simp only [pyStr]
      rw [if_neg hlen]
    rw [hres]
    dsimp only
    rw [if_neg (Bool.not_eq_true _ ▸ hskip : ¬skipRow (st.rows.getD idx default) = true)]
    rw [e2]
    by_cases hcb : (ctx.hasCallback && (st.processed + 1) % 100 == 0) = true
    · rw [if_pos hcb, if_pos hcb]
      refine ⟨e1, rfl, ?_, e4⟩
      rw [e3]
    · rw [if_neg hcb, if_neg hcb]
      refine ⟨e1, rfl, ?_, e4⟩
      rw [e3]
      simp

theorem midTrace_nil (ctx : Ctx) (p : Nat) : midTrace ctx [] p = [] := rfl

theorem midTrace_cons (ctx : Ctx) (r : PyRow) (rest : List PyRow) (p : Nat) :
    midTrace ctx (r :: rest) p =
      if skipRow r then midTrace ctx rest (p + 1)
      else if ctx.hasCallback && (p + 1) % 100 == 0 then
        (((p + 1 : Nat) : ℚ) / (ctx.total : ℚ)) :: midTrace ctx rest (p + 1)
      else midTrace ctx rest (p + 1) := rfl

theorem foldl_procRow_spec (ctx : Ctx) :
    ∀ (cands : List Nat) (st : LoopSt),
      cands.Pairwise (· < ·) → (∀ i ∈ cands, i < st.rows.length) →
      (cands.foldl (procRow ctx) st).rows.length = st.rows.length ∧
      (∀ j, (cands.foldl (procRow ctx) st).rows.getD j default =
        (if j ∈ cands then
          rowRes ctx (j ∈ ctx.freetext) (st.rows.getD j default)
         else st.rows.getD j default)) ∧
      (cands.foldl (procRow ctx) st).processed = st.processed + cands.length ∧
      (cands.foldl (procRow ctx) st).trace =
        st.trace ++ midTrace ctx (cands.map (fun i => st.rows.getD i default)) st.processed ∧
      (∀ w ∈ (cands.foldl (procRow ctx) st).writes, w ∈ st.writes ∨ w.1 = ctx.freshId) := by
  intro cands
  induction cands with
  | nil =>
    intro st _ _
    refine ⟨rfl, ?_, rfl, by simp [midTrace], fun w hw => Or.inl hw⟩
    intro j
    simp
  | cons idx rest ih =>
    intro st hpair hlt
    have hidx : idx < st.rows.length := hlt idx (by simp)
    obtain ⟨e1, e2, e3, e4⟩ := procRow_spec ctx st idx hidx
    have hlen1 : (procRow ctx st idx).rows.length = st.rows.length := by
      rw [e1, List.length_set]
    have hrest_pair : rest.Pairwise (· < ·) := (List.pairwise_cons.mp hpair).2
    have hhead : ∀ y ∈ rest, idx < y := (List.pairwise_cons.mp hpair).1
    have hlt2 : ∀ i ∈ rest, i < (procRow ctx st idx).rows.length := by
      intro i hi
      rw [hlen1]
      exact hlt i (by simp [hi])
    have hgetD : ∀ j, j ≠ idx →
        (procRow ctx st idx).rows.getD j default = st.rows.getD j default := by
      intro j hj
      rw [e1]
      exact getD_set_ne st.rows idx j (fun hh => hj hh.symm) _
    have hgetDidx : (procRow ctx st idx).rows.getD idx default =
        rowRes ctx (idx ∈ ctx.freetext) (st.rows.getD idx default) := by
      rw [e1]
      exact getD_set_self st.rows idx hidx _
    obtain ⟨f1, f2, f3, f4, f5⟩ := ih (procRow ctx st idx) hrest_pair hlt2
    simp only [List.foldl_cons]
    refine ⟨by rw [f1, hlen1], ?_, ?_, ?_, ?_⟩
    · intro j
      rw [f2 j]
      by_cases hjr : j ∈ rest
      · have hjne : j ≠ idx := fun hh => by
          subst hh
          exact absurd (hhead j hjr) (lt_irrefl j)
        rw [if_pos hjr, if_pos (by simp [hjr] : j ∈ idx :: rest), hgetD j hjne]
      · rw [if_neg hjr]
        by_cases hje : j = idx
        · subst hje
          rw [if_pos (by simp : j ∈ j :: rest), hgetDidx]
        · rw [if_neg (by simp [hje, hjr] : ¬j ∈ idx :: rest), hgetD j hje]
    · rw [f3, e2, List.length_cons]
      omega
    · rw [f4, e3, e2]
      have hmapeq : rest.map (fun i => (procRow ctx st idx).rows.getD i default) =
          rest.map (fun i => st.rows.getD i default) := by
        apply List.map_congr_left
        intro i hi
        exact hgetD i (fun hh => by
          subst hh
          exact absurd (hhead i hi) (lt_irrefl i))
      rw [hmapeq]
      show st.trace ++ _ ++ _ = st.trace ++ midTrace ctx
        ((st.rows.getD idx default) :: rest.map (fun i => st.rows.getD i default)) st.processed
      rw [List.append_assoc]
      congr 1
      rw [midTrace_cons]
      by_cases hskip : skipRow (st.rows.getD idx default) = true
      · rw [if_pos hskip, if_pos hskip]
        simp
      · rw [if_neg hskip, if_neg hskip]
        by_cases hcb : (ctx.hasCallback && (st.processed + 1) % 100 == 0) = true
        · rw [if_pos hcb, if_pos hcb]
          simp
        · rw [if_neg hcb, if_neg hcb]
          simp
    · intro w hw
      rcases f5 w hw with hl | hr
      · exact e4 w hl
      · exact Or.inr hr

theorem idxWhere_pairwise (p : PyRow → Bool) (rows : List PyRow) :
    (idxWhere p rows).Pairwise (· < ·) := by
  unfold idxWhere
  exact (List.pairwise_lt_range rows.length).filter _

theorem mem_idxWhere (p : PyRow → Bool) (rows : List PyRow) (j : Nat) :
    j ∈ idxWhere p rows ↔ j < rows.length ∧ p (rows.getD j default) = true := by
  unfold idxWhere
  rw [List.mem_filter, List.mem_range]

theorem candIdx_pairwise (df : PyFrame) : (candIdx df).Pairwise (· < ·) :=
  idxWhere_pairwise _ _

theorem mem_candIdx (df : PyFrame) (j : Nat) :
    j ∈ candIdx df ↔ j < df.rows.length ∧ isCandidate (df.rows.getD j default) = true :=
  mem_idxWhere _ _ j

theorem mem_freeIdx (df : PyFrame) (j : Nat) (hst : df.hasSourceTypeCol = true) :
    j ∈ freeIdx df ↔ j < df.rows.length ∧ isFreetextRow (df.rows.getD j default) = true := by
  unfold freeIdx
  rw [hst]
  simp only [if_true]
  exact mem_idxWhere _ _ j

theorem anonymize_dataframe_main (nlp : String → Except String String) (df : PyFrame)
    (bl : List String) (fz : Bool) (thr : Nat) (cb : Bool) (freshId : Nat)
    (h1 : df.rows ≠ []) (h2 : df.hasValueCol = true)
    (h3 : ¬(cleanTerms bl = [] ∧ (!df.hasSourceTypeCol) = true)) :
    anonymize_dataframe nlp df bl fz thr cb freshId =
      ⟨{ objId := freshId, hasValueCol := df.hasValueCol,
          hasSourceTypeCol := df.hasSourceTypeCol,
          rows := ((candIdx df).foldl
            (procRow (runCtx nlp df bl fz thr cb freshId))
            ⟨df.rows, [], 0, if cb then [0] else []⟩).rows },
        ((candIdx df).foldl (procRow (runCtx nlp df bl fz thr cb freshId))
          ⟨df.rows, [], 0, if cb then [0] else []⟩).writes,
        if cb then
          ((candIdx df).foldl (procRow (runCtx nlp df bl fz thr cb freshId))
            ⟨df.rows, [], 0, if cb then [0] else []⟩).trace ++ [1]
        else
          ((candIdx df).foldl (procRow (runCtx nlp df bl fz thr cb freshId))
            ⟨df.rows, [], 0, if cb then [0] else []⟩).trace⟩ := by
  unfold anonymize_dataframe
  rw [if_neg h1, h2]
  simp only [Bool.not_true, Bool.false_eq_true, if_false]
  rw [if_neg h3]

theorem anonymize_dataframe_rows_length (nlp : String → Except String String)
    (df : PyFrame) (bl : List String) (fz : Bool) (thr : Nat) (cb : Bool)
    (freshId : Nat) :
    (anonymize_dataframe nlp df bl fz thr cb freshId).out.rows.length =
      df.rows.length := by
  by_cases h1 : df.rows = []
  · unfold anonymize_dataframe
    rw [if_pos h1]
  · cases h2 : df.hasValueCol with
    | false =>
      unfold anonymize_dataframe
      rw [if_neg h1, h2]
      rfl
    | true =>
      by_cases h3 : cleanTerms bl = [] ∧ (!df.hasSourceTypeCol) = true
      · unfold anonymize_dataframe
        rw [if_neg h1, h2]
        simp only [Bool.not_true, Bool.false_eq_true, if_false]
        rw [if_pos h3]
      · rw [anonymize_dataframe_main nlp df bl fz thr cb freshId h1 h2 h3]
        exact (foldl_procRow_spec _ (candIdx df) ⟨df.rows, [], 0, if cb then [0] else []⟩
          (candIdx_pairwise df)
          (fun i hi => ((mem_candIdx df i).mp hi).1)).1

theorem anonymize_dataframe_skip_row (nlp : String → Except String String)
    (df : PyFrame) (bl : List String) (fz : Bool) (thr : Nat) (cb : Bool)
    (freshId : Nat) (idx : Nat)
    (hskip : skipRow (df.rows.getD idx default) = true) :
    (anonymize_dataframe nlp df bl fz thr cb freshId).out.rows.getD idx default =
      df.rows.getD idx default := by
  by_cases h1 : df.rows = []
  · unfold anonymize_dataframe
    rw [if_pos h1]
  · cases h2 : df.hasValueCol with
    | false =>
      unfold anonymize_dataframe
      rw [if_neg h1, h2]
      rfl
    | true =>
      by_cases h3 : cleanTerms bl = [] ∧ (!df.hasSourceTypeCol) = true
      · unfold anonymize_dataframe
        rw [if_neg h1, h2]
        simp only [Bool.not_true, Bool.false_eq_true, if_false]
        rw [if_pos h3]
      · rw [anonymize_dataframe_main nlp df bl fz thr cb freshId h1 h2 h3]
        have hspec := (foldl_procRow_spec (runCtx nlp df bl fz thr cb freshId)
          (candIdx df)
          ⟨df.rows, [], 0, if cb then [0] else []⟩ (candIdx_pairwise df)
          (fun i hi => ((mem_candIdx df i).mp hi).1)).2.1 idx
        show _ = df.rows.getD idx default
        rw [hspec]
        by_cases hin : idx ∈ candIdx df
        · rw [if_pos hin]
          exact rowRes_skip _ _ _ hskip
        · rw [if_neg hin]

/-! ## Claim C4 -/

/-- C4: a numeric cell and a string cell shorter than 5 characters are
returned by `anonymize_dataframe` unchanged (the whole row, hence the value
in both type and payload), for every blacklist and fuzzy setting. -/
theorem c4_numeric_and_short_unchanged (nlp : String → Except String String)
    (df : PyFrame) (bl : List String) (fz : Bool) (thr : Nat) (cb : Bool)
    (freshId : Nat) (idx : Nat) :
    (∀ b v, (df.rows.getD idx default).value = .pnum b v →
      (anonymize_dataframe nlp df bl fz thr cb freshId).out.rows.getD idx default =
        df.rows.getD idx default) ∧
    (∀ s : String, (df.rows.getD idx default).value = .pstr s → s.length < 5 →
      (anonymize_dataframe nlp df bl fz thr cb freshId).out.rows.getD idx default =
        df.rows.getD idx default) := by
  constructor
  · intro b v hv
    apply anonymize_dataframe_skip_row
    unfold skipRow
    rw [hv]
  · intro s hv hlen
    apply anonymize_dataframe_skip_row
    unfold skipRow
    rw [hv]
    exact decide_eq_true (by exact_mod_cast hlen)

/-- C4 witness: the short value `"ja"` survives a run unchanged next to a
numeric row. -/
theorem c4_numeric_and_short_unchanged_witness :
    (anonymize_dataframe (fun s => .ok s)
        ⟨0, true, false, [⟨.pstr "ja", none⟩, ⟨.pnum true 3, none⟩]⟩
        ["Peter"] true 85 false 1).out.rows.getD 0 default =
      ⟨.pstr "ja", none⟩ :=
  (c4_numeric_and_short_unchanged (fun s => .ok s)
    ⟨0, true, false, [⟨.pstr "ja", none⟩, ⟨.pnum true 3, none⟩]⟩
    ["Peter"] true 85 false 1 0).2 "ja" rfl (by decide)

/-! ## Claim C1 -/

/-- C1 (amended): `anonymize_dataframe` never writes to any object other
than the fresh copy, so the caller's input DataFrame is never mutated; for
every non-empty input the returned dataset is the distinct copy (its object
identity differs from the input's); for an empty input the function returns
the input object itself, unmutated. -/
theorem c1_no_input_mutation (nlp : String → Except String String) (df : PyFrame)
    (bl : List String) (fz : Bool) (thr : Nat) (cb : Bool) (freshId : Nat)
    (hfresh : freshId ≠ df.objId) :
    (∀ w ∈ (anonymize_dataframe nlp df bl fz thr cb freshId).writes,
      w.1 ≠ df.objId) ∧
    (df.rows ≠ [] →
      (anonymize_dataframe nlp df bl fz thr cb freshId).out.objId ≠ df.objId) := by
  by_cases h1 : df.rows = []
  · unfold anonymize_dataframe
    rw [if_pos h1]
    exact ⟨fun w hw => absurd hw (by simp), fun h => absurd h1 h⟩
  · cases h2 : df.hasValueCol with
    | false =>
      unfold anonymize_dataframe
      rw [if_neg h1, h2]
      exact ⟨fun w hw => absurd hw (by simp), fun _ => hfresh⟩
    | true =>
      by_cases h3 : cleanTerms bl = [] ∧ (!df.hasSourceTypeCol) = true
      · unfold anonymize_dataframe
        rw [if_neg h1, h2]
        simp only [Bool.not_true, Bool.false_eq_true, if_false]
        rw [if_pos h3]
        exact ⟨fun w hw => absurd hw (by simp), fun _ => hfresh⟩
      · rw [anonymize_dataframe_main nlp df bl fz thr cb freshId h1 h2 h3]
        constructor
        · intro w hw
          have := (foldl_procRow_spec (runCtx nlp df bl fz thr cb freshId)
            (candIdx df)
            ⟨df.rows, [], 0, if cb then [0] else []⟩ (candIdx_pairwise df)
            (fun i hi => ((mem_candIdx df i).mp hi).1)).2.2.2.2 w hw
          rcases this with hl | hr
          · exact absurd hl (by simp)
          · rw [hr]
            exact hfresh
        · intro _
          exact hfresh

/-- C1 witness: on a non-empty frame with a fresh copy id, no write targets
the input and the returned frame carries the fresh id. -/
theorem c1_no_input_mutation_witness :
    (anonymize_dataframe (fun s => .ok s)
        ⟨3, true, false, [⟨.pstr "Peter kommt", none⟩]⟩
        ["Peter"] true 85 false 4).out.objId ≠ 3 :=
  (c1_no_input_mutation (fun s => .ok s)
    ⟨3, true, false, [⟨.pstr "Peter kommt", none⟩]⟩
    ["Peter"] true 85 false 4 (by decide)).2 (by decide)

/-- C1 counterexample: on an empty DataFrame the code takes the
`if df is None or df.empty: return df` path and returns the input object
itself, not a distinct copy. -/
theorem c1_no_input_mutation_counterexample :
    (anonymize_dataframe (fun s => .ok s) ⟨7, true, false, []⟩
        ["Meier"] true 85 false 8).out = ⟨7, true, false, []⟩ := rfl

/-! ## Claim C2 -/

/-- C2: when entity recognition raises on a freetext candidate row, the run
still returns a complete dataset of the same length; that row's output value
is the blacklist-only redaction of its original value, and every other row
gets its normal per-row result. -/
theorem c2_row_failure_isolated (nlp : String → Except String String)
    (df : PyFrame) (bl : List String) (fz : Bool) (thr : Nat) (cb : Bool)
    (freshId : Nat) (idx : Nat) (e : String)
    (h1 : df.rows ≠ []) (h2 : df.hasValueCol = true)
    (h3 : ¬(cleanTerms bl = [] ∧ (!df.hasSourceTypeCol) = true))
    (h4 : idx < df.rows.length)
    (hcand : isCandidate (df.rows.getD idx default) = true)
    (hst : df.hasSourceTypeCol = true)
    (hfree : isFreetextRow (df.rows.getD idx default) = true)
    (hskip : skipRow (df.rows.getD idx default) = false)
    (hfail : nlp (pyStr (df.rows.getD idx default).value) = .error e) :
    (anonymize_dataframe nlp df bl fz thr cb freshId).out.rows.length =
      df.rows.length ∧
    ((anonymize_dataframe nlp df bl fz thr cb freshId).out.rows.getD idx default).value =
      .pstr (blacklist_replace (pyStr (df.rows.getD idx default).value)
        (cleanTerms bl) fz thr) ∧
    (∀ j, j ≠ idx →
      (anonymize_dataframe nlp df bl fz thr cb freshId).out.rows.getD j default =
        (if j ∈ candIdx df then
          rowRes (runCtx nlp df bl fz thr cb freshId) (j ∈ freeIdx df)
            (df.rows.getD j default)
         else df.rows.getD j default)) := by
  obtain ⟨s, hv, hlen⟩ := skipRow_pstr_cases _ hskip
  have hfreein : idx ∈ freeIdx df := (mem_freeIdx df idx hst).mpr ⟨h4, hfree⟩
  have hcin : idx ∈ candIdx df := (mem_candIdx df idx).mpr ⟨h4, hcand⟩
  rw [hv] at hfail
  have hfails : nlp s = .error e := hfail
  have hspec := foldl_procRow_spec (runCtx nlp df bl fz thr cb freshId)
    (candIdx df) ⟨df.rows, [], 0, if cb then [0] else []⟩ (candIdx_pairwise df)
    (fun i hi => ((mem_candIdx df i).mp hi).1)
  refine ⟨anonymize_dataframe_rows_length nlp df bl fz thr cb freshId, ?_, ?_⟩
  · rw [anonymize_dataframe_main nlp df bl fz thr cb freshId h1 h2 h3]
    show ((((candIdx df).foldl (procRow (runCtx nlp df bl fz thr cb freshId))
      ⟨df.rows, [], 0, if cb then [0] else []⟩)).rows.getD idx default).value = _
    rw [hspec.2.1 idx, if_pos hcin]
    rw [hv]
    show (rowRes (runCtx nlp df bl fz thr cb freshId) (idx ∈ freeIdx df)
      (df.rows.getD idx default)).value = _
    unfold rowRes
    rw [hv]
    dsimp only
    simp only [pyStr]
    rw [if_neg hlen, if_pos hfreein]
    have hsne : ¬s = "" := by
      intro hh
      subst hh
      exact hlen (by decide)
    show ((match anonymize_content nlp s (cleanTerms bl) fz thr with
      | Except.ok w => { df.rows.getD idx default with value := PyValue.pstr w }
      | Except.error _ =>
        if cleanTerms bl ≠ [] then
          { df.rows.getD idx default with
            value := PyValue.pstr (blacklist_replace s (cleanTerms bl) fz thr) }
        else df.rows.getD idx default) : PyRow).value = _
    have hac : anonymize_content nlp s (cleanTerms bl) fz thr = .error e := by
      unfold anonymize_content
      rw [if_neg hsne, hfails]
    rw [hac]
    by_cases hcl : cleanTerms bl ≠ []
    · rw [if_pos hcl]
    · rw [if_neg hcl]
      rw [Decidable.not_not] at hcl
      rw [hcl, blacklist_replace_empty_terms]
      rw [hv]
  · intro j hj
    rw [anonymize_dataframe_main nlp df bl fz thr cb freshId h1 h2 h3]
    exact hspec.2.1 j

/-- C2 witness: with a recognizer that always raises, the freetext row falls
back to blacklist-only redaction while the run completes. -/
theorem c2_row_failure_isolated_witness :
    ((anonymize_dataframe (fun _ => .error "boom")
        ⟨0, true, true, [⟨.pstr "Peter ist hier", some "Arztnotizen"⟩,
          ⟨.pstr "Peter kommt", none⟩]⟩
        ["Peter"] true 85 false 1).out.rows.getD 0 default).value =
      .pstr "<ANONYM> ist hier" := by
  have h := (c2_row_failure_isolated (fun _ => .error "boom")
    ⟨0, true, true, [⟨.pstr "Peter ist hier", some "Arztnotizen"⟩,
      ⟨.pstr "Peter kommt", none⟩]⟩
    ["Peter"] true 85 false 1 0 "boom" (by decide) rfl (by decide) (by decide)
    (by decide) rfl (by decide) (by decide) rfl).2.1
  rw [h]
  decide

/-! ## Lemmas: the progress trace -/

theorem div_cast_mono (t : Nat) {a b : Nat} (h : a ≤ b) :
    (a : ℚ) / (t : ℚ) ≤ (b : ℚ) / (t : ℚ) := by
  cases Nat.eq_zero_or_pos t with
  | inl h0 =>
    subst h0
    simp
  | inr hpos =>
    have ht : (0 : ℚ) < (t : ℚ) := by exact_mod_cast hpos
    rw [div_le_div_right ht]
    exact_mod_cast h

theorem div_cast_nonneg (a t : Nat) : (0 : ℚ) ≤ (a : ℚ) / (t : ℚ) := by
  apply div_nonneg
  · exact_mod_cast Nat.zero_le a
  · exact_mod_cast Nat.zero_le t

theorem div_cast_le_one (k t : Nat) (h : k ≤ t) : (k : ℚ) / (t : ℚ) ≤ 1 := by
  cases Nat.eq_zero_or_pos t with
  | inl h0 =>
    subst h0
    have : k = 0 := Nat.le_zero.mp h
    subst this
    simp
  | inr hpos =>
    have ht : (0 : ℚ) < (t : ℚ) := by exact_mod_cast hpos
    rw [div_le_one ht]
    exact_mod_cast h

theorem midTrace_mem_bounds (ctx : Ctx) :
    ∀ (vals : List PyRow) (p : Nat), ∀ q ∈ midTrace ctx vals p,
      ∃ k : Nat, q = (k : ℚ) / (ctx.total : ℚ) ∧ p < k ∧ k ≤ p + vals.length := by
  intro vals
  induction vals with
  | nil => intro p q hq; simp [midTrace_nil] at hq
  | cons r rest ih =>
    intro p q hq
    rw [midTrace_cons] at hq
    by_cases hskip : skipRow r = true
    · rw [if_pos hskip] at hq
      obtain ⟨k, hk, h1, h2⟩ := ih (p + 1) q hq
      exact ⟨k, hk, by omega, by simp only [List.length_cons]; omega⟩
    · rw [if_neg hskip] at hq
      by_cases hcb : (ctx.hasCallback && (p + 1) % 100 == 0) = true
      · rw [if_pos hcb] at hq
        rcases List.mem_cons.mp hq with hh | hh
        · exact ⟨p + 1, hh, by omega, by simp only [List.length_cons]; omega⟩
        · obtain ⟨k, hk, hk1, hk2⟩ := ih (p + 1) q hh
          exact ⟨k, hk, by omega, by simp only [List.length_cons]; omega⟩
      · rw [if_neg hcb] at hq
        obtain ⟨k, hk, hk1, hk2⟩ := ih (p + 1) q hq
        exact ⟨k, hk, by omega, by simp only [List.length_cons]; omega⟩

theorem midTrace_chain (ctx : Ctx) :
    ∀ (vals : List PyRow) (p : Nat), List.Chain' (· ≤ ·) (midTrace ctx vals p) := by
  intro vals
  induction vals with
  | nil => intro p; simp [midTrace_nil]
  | cons r rest ih =>
    intro p
    rw [midTrace_cons]
    by_cases hskip : skipRow r = true
    · rw [if_pos hskip]
      exact ih (p + 1)
    · rw [if_neg hskip]
      by_cases hcb : (ctx.hasCallback && (p + 1) % 100 == 0) = true
      · rw [if_pos hcb]
        rw [List.chain'_cons']
        refine ⟨?_, ih (p + 1)⟩
        intro b hb
        have hmem : b ∈ midTrace ctx rest (p + 1) := List.mem_of_mem_head? hb
        obtain ⟨k, hk, hk1, _⟩ := midTrace_mem_bounds ctx rest (p + 1) b hmem
        rw [hk]
        exact div_cast_mono ctx.total (by omega)
      · rw [if_neg hcb]
        exact ih (p + 1)

theorem chain_cons_zero (l : List ℚ) (hc : List.Chain' (· ≤ ·) l)
    (hl : ∀ q ∈ l, 0 ≤ q) : List.Chain' (· ≤ ·) ((0 : ℚ) :: l) :=
  List.chain'_cons'.mpr ⟨fun b hb => hl b (List.mem_of_mem_head? hb), hc⟩

theorem chain_append_one :
    ∀ (l : List ℚ), List.Chain' (· ≤ ·) l → (∀ q ∈ l, q ≤ 1) →
      List.Chain' (· ≤ ·) (l ++ [1]) := by
  intro l
  induction l with
  | nil => intro _ _; simp
  | cons a t ih =>
    intro hc hh
    rw [List.cons_append]
    rw [List.chain'_cons'] at hc
    refine List.chain'_cons'.mpr ⟨?_, ih hc.2 (fun q hq => hh q (by simp [hq]))⟩
    intro b hb
    cases t with
    | nil =>
      simp only [List.nil_append, List.head?_cons, Option.mem_def, Option.some.injEq] at hb
      subst hb
      exact hh a (by simp)
    | cons c t' =>
      simp only [List.cons_append, List.head?_cons, Option.mem_def, Option.some.injEq] at hb
      rw [← hb]
      exact hc.1 c (by simp)

/-! ## Claim C9 -/

/-- C9 (amended): when a run with a progress callback reaches the processing
phase (non-empty dataset with a value column, and a non-empty cleaned
blacklist or a source_type column), the callback reports 0.0 first and
exactly 1.0 last; in between it reports `processed / totalCandidates`
exactly when a candidate row that is neither numeric nor shorter than 5
characters brings the processed count to a multiple of 100 (skipped rows
increment the count without a report, as `midTrace` records); the reported
sequence is non-decreasing. -/
theorem c9_progress_trace (nlp : String → Except String String) (df : PyFrame)
    (bl : List String) (fz : Bool) (thr : Nat) (freshId : Nat)
    (h1 : df.rows ≠ []) (h2 : df.hasValueCol = true)
    (h3 : ¬(cleanTerms bl = [] ∧ (!df.hasSourceTypeCol) = true)) :
    (anonymize_dataframe nlp df bl fz thr true freshId).trace =
      (0 : ℚ) :: (midTrace (runCtx nlp df bl fz thr true freshId)
        ((candIdx df).map (fun i => df.rows.getD i default)) 0 ++ [1]) ∧
    List.Chain' (· ≤ ·) (anonymize_dataframe nlp df bl fz thr true freshId).trace := by
  have hspec := foldl_procRow_spec (runCtx nlp df bl fz thr true freshId)
    (candIdx df) ⟨df.rows, [], 0, if true then [0] else []⟩ (candIdx_pairwise df)
    (fun i hi => ((mem_candIdx df i).mp hi).1)
  have htr : (anonymize_dataframe nlp df bl fz thr true freshId).trace =
      (0 : ℚ) :: (midTrace (runCtx nlp df bl fz thr true freshId)
        ((candIdx df).map (fun i => df.rows.getD i default)) 0 ++ [1]) := by
    rw [anonymize_dataframe_main nlp df bl fz thr true freshId h1 h2 h3]
    dsimp only
    rw [if_pos rfl, hspec.2.2.2.1]
    rfl
  refine ⟨htr, ?_⟩
  rw [htr]
  have hbounds := midTrace_mem_bounds (runCtx nlp df bl fz thr true freshId)
    ((candIdx df).map (fun i => df.rows.getD i default)) 0
  have htotal : ((candIdx df).map (fun i => df.rows.getD i default)).length =
      (runCtx nlp df bl fz thr true freshId).total := by
    rw [List.length_map]
    rfl
  apply chain_cons_zero
  · apply chain_append_one
    · exact midTrace_chain _ _ 0
    · intro q hq
      obtain ⟨k, hk, _, hk2⟩ := hbounds q hq
      rw [hk]
      apply div_cast_le_one
      rw [htotal] at hk2
      omega
  · intro q hq
    rcases List.mem_append.mp hq with hl | hr
    · obtain ⟨k, hk, _, _⟩ := hbounds q hl
      rw [hk]
      exact div_cast_nonneg k _
    · simp only [List.mem_singleton] at hr
      rw [hr]
      norm_num

/-- C9 witness: a one-row run reports exactly 0.0 then 1.0. -/
theorem c9_progress_trace_witness :
    (anonymize_dataframe (fun s => .ok s)
        ⟨0, true, false, [⟨.pstr "hello", none⟩]⟩
        ["q"] false 85 true 1).trace = [(0 : ℚ), 1] := by
  have h := (c9_progress_trace (fun s => .ok s)
    ⟨0, true, false, [⟨.pstr "hello", none⟩]⟩
    ["q"] false 85 1 (by decide) rfl (by decide)).1
  rw [h]
  decide

set_option maxRecDepth 100000 in
/-- C9 counterexample: on a run whose 100th processed candidate row is
numeric, the code reports no intermediate fraction — the trace is `[0, 1]`,
not the claimed `[0, 100/100, 1]` — because rows skipped as numeric or short
bypass the modulo check. -/
theorem c9_progress_trace_counterexample :
    (anonymize_dataframe (fun s => .ok s)
        ⟨0, true, false,
          List.replicate 99 ⟨.pstr "hello", none⟩ ++ [⟨.pnum false 7, none⟩]⟩
        ["q"] false 85 true 1).trace ≠
      claimedTrace ((candIdx ⟨0, true, false,
        List.replicate 99 ⟨.pstr "hello", none⟩ ++ [⟨.pnum false 7, none⟩]⟩).length) :=
  fun h => absurd (congrArg List.length h) (by decide)
